import Mathlib

/-!
# Verification of the SSSP core (CSR graph + binary-heap Dijkstra solver)

Shallow embedding of `src/packages/gnc-rust/src/sssp.rs`.

Modelling conventions:
* `f64` is modelled by `F64`: exact rationals for finite values (IEEE rounding
  is not modelled; all concrete scenarios in the spec use small integers that
  `f64` represents exactly), plus the two infinities and NaN, with IEEE
  comparison semantics (every comparison involving NaN is false).
* Rust `Vec` indexing `v[i]` panics when out of bounds; fallible computations
  are therefore embedded with `Option`/an explicit `trap` outcome, `none`
  (resp. `.trap`) meaning the Rust code panics at that point.
* The host clock (`web_sys::window().and_then(performance)`) is absent in the
  modelled environment, so `unwrap_or(0.0)` makes every timestamp `0.0`;
  `wall_time_ms` is consequently always `F64.fin 0`.
* `console_log!` diagnostics of `validate` are modelled by the `Diag` values
  returned next to the boolean (`validateLog`); other logging has no
  observable effect and is dropped.
-/

/-- IEEE-754 double, modelled symbolically: `fin q` is an exact finite value,
plus positive / negative infinity and NaN. -/
inductive F64 where
  | fin (q : ℚ)
  | inf
  | ninf
  | nan
deriving DecidableEq

namespace F64

/-- `f64::is_finite`. -/
def isFinite : F64 → Bool
  | fin _ => true
  | inf => false
  | ninf => false
  | nan => false

/-- IEEE `<` on doubles: `NaN` compares false with everything. -/
def lt : F64 → F64 → Bool
  | fin a, fin b => decide (a < b)
  | fin _, inf => true
  | fin _, ninf => false
  | fin _, nan => false
  | inf, _ => false
  | ninf, fin _ => true
  | ninf, inf => true
  | ninf, ninf => false
  | ninf, nan => false
  | nan, _ => false

/-- IEEE `+` on doubles (exact on finite values; rounding not modelled). -/
def add : F64 → F64 → F64
  | nan, _ => nan
  | _, nan => nan
  | fin a, fin b => fin (a + b)
  | fin _, inf => inf
  | fin _, ninf => ninf
  | inf, fin _ => inf
  | inf, inf => inf
  | inf, ninf => nan
  | ninf, fin _ => ninf
  | ninf, inf => nan
  | ninf, ninf => ninf

/-- Non-strict order used in specification statements: `a` is below `b`. -/
def Fle (a b : F64) : Prop := lt a b = true ∨ a = b

theorem Fle.refl (a : F64) : Fle a a := Or.inr rfl

theorem lt_trans {a b c : F64} (h1 : lt a b = true) (h2 : lt b c = true) :
    lt a c = true := by
  cases a <;> cases b <;> cases c <;> simp_all [lt] <;> linarith

theorem lt_irrefl (a : F64) : lt a a = false := by
  cases a <;> simp [lt]

theorem Fle.trans {a b c : F64} (h1 : Fle a b) (h2 : Fle b c) : Fle a c := by
  rcases h1 with h1 | rfl
  · rcases h2 with h2 | rfl
    · exact Or.inl (lt_trans h1 h2)
    · exact Or.inl h1
  · exact h2

theorem Fle.lt_of_lt_of_le {a b c : F64} (h1 : lt a b = true) (h2 : Fle b c) :
    lt a c = true := by
  rcases h2 with h2 | rfl
  · exact lt_trans h1 h2
  · exact h1

theorem Fle.lt_of_le_of_lt {a b c : F64} (h1 : Fle a b) (h2 : lt b c = true) :
    lt a c = true := by
  rcases h1 with h1 | rfl
  · exact lt_trans h1 h2
  · exact h2

/-- Totality on the non-NaN fragment actually reached by the solver. -/
theorem le_total_fin_inf {a b : F64}
    (ha : a = inf ∨ ∃ q, a = fin q) (hb : b = inf ∨ ∃ q, b = fin q)
    (h : lt a b = false) : Fle b a := by
  rcases ha with rfl | ⟨qa, rfl⟩ <;> rcases hb with rfl | ⟨qb, rfl⟩
  · exact Fle.refl _
  · exact Or.inl rfl
  · simp [lt] at h
  · simp [lt] at h
    rcases lt_or_eq_of_le h with h' | h'
    · exact Or.inl (by simp [lt, h'])
    · exact Or.inr (by rw [h'])

theorem fle_fin_iff {a b : ℚ} : Fle (fin a) (fin b) ↔ a ≤ b := by
  constructor
  · rintro (h | h)
    · simp [lt] at h; exact le_of_lt h
    · cases h; exact le_rfl
  · intro h
    rcases lt_or_eq_of_le h with h' | h'
    · exact Or.inl (by simp [lt, h'])
    · exact Or.inr (by rw [h'])

theorem fle_inf {a : F64} (ha : a = inf ∨ ∃ q, a = fin q) : Fle a inf := by
  rcases ha with rfl | ⟨q, rfl⟩
  · exact Fle.refl _
  · exact Or.inl rfl

theorem lt_fin_ne_inf {x : F64} {q : ℚ} (h : Fle x (fin q)) : x ≠ inf := by
  rintro rfl
  rcases h with h | h
  · simp [lt] at h
  · cases h

end F64

/-! ## The CSR graph (`SparseGraph`, sssp.rs lines 27–114) -/

/-- Diagnostics emitted by `validate` through the logging sink
(`console_log!`), one per early-return branch. -/
inductive Diag where
  | wrongOffsetsLen
  | badEdgeLens
  | nonMonotonic (i : Nat)
  | badDest (d : Nat)
  | badWeight (w : F64)
  | passed
deriving DecidableEq

/-- Compressed Sparse Row graph (sssp.rs lines 30–38).  `u32` entries are
modelled by `Nat` (they are only compared and used as indices). -/
structure SparseGraph where
  node_count : Nat
  edge_count : Nat
  outgoing_edges : List Nat
  destinations : List Nat
  weights : List F64
deriving DecidableEq

namespace SparseGraph

/-- Constructor (sssp.rs lines 44–59): `edge_count` is derived as the length
of `destinations`. -/
def new (node_count : Nat) (outgoing_edges : List Nat) (destinations : List Nat)
    (weights : List F64) : SparseGraph :=
  { node_count := node_count
    edge_count := destinations.length
    outgoing_edges := outgoing_edges
    destinations := destinations
    weights := weights }

/-- `validate` (sssp.rs lines 75–113) together with the diagnostic the first
failing check logs.  Inside each loop the source indexes `outgoing_edges[i]`
and `outgoing_edges[i+1]`; those accesses are in bounds because the length
check has already passed, so `getD` coincides with the source's indexing. -/
def validateLog (g : SparseGraph) : Bool × List Diag :=
  if g.outgoing_edges.length ≠ g.node_count + 1 then
    (false, [Diag.wrongOffsetsLen])
  else if g.destinations.length ≠ g.edge_count ∨ g.weights.length ≠ g.edge_count then
    (false, [Diag.badEdgeLens])
  else
    match (List.range g.node_count).find?
        (fun i => decide (g.outgoing_edges.getD (i+1) 0 < g.outgoing_edges.getD i 0)) with
    | some i => (false, [Diag.nonMonotonic i])
    | none =>
      match g.destinations.find? (fun d => decide (g.node_count ≤ d)) with
      | some d => (false, [Diag.badDest d])
      | none =>
        match g.weights.find? (fun w => F64.lt w (F64.fin 0) || !w.isFinite) with
        | some w => (false, [Diag.badWeight w])
        | none => (true, [Diag.passed])

/-- The boolean result of `validate`. -/
def validate (g : SparseGraph) : Bool := (g.validateLog).1

end SparseGraph

/-- The four structural invariants of spec §3 (offsets length, monotone
offsets, in-range destinations, non-negative finite weights) together with the
parallel-array length conformance of a well-formed triple. -/
def WellFormed (g : SparseGraph) : Prop :=
  g.outgoing_edges.length = g.node_count + 1 ∧
  g.destinations.length = g.edge_count ∧
  g.weights.length = g.edge_count ∧
  (∀ i, i < g.node_count → g.outgoing_edges.getD i 0 ≤ g.outgoing_edges.getD (i+1) 0) ∧
  (∀ d ∈ g.destinations, d < g.node_count) ∧
  (∀ w ∈ g.weights, F64.lt w (F64.fin 0) = false ∧ w.isFinite = true)

instance (g : SparseGraph) : Decidable (WellFormed g) := by
  unfold WellFormed
  infer_instance

theorem validate_iff_wellFormed (g : SparseGraph) :
    g.validate = true ↔ WellFormed g := by
  unfold SparseGraph.validate SparseGraph.validateLog
  split
  · rename_i h1
    exact iff_of_false (by simp) (fun hw => h1 hw.1)
  · split
    · rename_i h1 h2
      refine iff_of_false (by simp) (fun hw => ?_)
      rcases h2 with h | h
      · exact h hw.2.1
      · exact h hw.2.2.1
    · rename_i h1 h2
      push_neg at h1 h2
      split
      · rename_i i heq
        refine iff_of_false (by simp) (fun hw => ?_)
        have hm := List.mem_range.mp (List.mem_of_find?_eq_some heq)
        have hp := List.find?_some heq
        simp only [decide_eq_true_eq] at hp
        exact absurd (hw.2.2.2.1 i hm) (Nat.not_le.mpr hp)
      · rename_i hf1
        split
        · rename_i d heq
          refine iff_of_false (by simp) (fun hw => ?_)
          have hm := List.mem_of_find?_eq_some heq
          have hp := List.find?_some heq
          simp only [decide_eq_true_eq] at hp
          exact absurd (hw.2.2.2.2.1 d hm) (Nat.not_lt.mpr hp)
        · rename_i hf2
          split
          · rename_i w heq
            refine iff_of_false (by simp) (fun hw => ?_)
            have hm := List.mem_of_find?_eq_some heq
            have hp := List.find?_some heq
            rcases hw.2.2.2.2.2 w hm with ⟨hw1, hw2⟩
            simp [hw1, hw2] at hp
          · rename_i hf3
            refine iff_of_true rfl ⟨h1, h2.1, h2.2, ?_, ?_, ?_⟩
            · intro i hi
              have := List.find?_eq_none.mp hf1 i (List.mem_range.mpr hi)
              exact Nat.le_of_not_lt (by simpa using this)
            · intro d hd
              have := List.find?_eq_none.mp hf2 d hd
              exact Nat.lt_of_not_le (by simpa using this)
            · intro w hw
              have := List.find?_eq_none.mp hf3 w hw
              simp only [Bool.or_eq_true, not_or, Bool.not_eq_true'] at this
              exact ⟨by simpa using this.1, by simpa using this.2⟩

/-! ## Solver data structures (sssp.rs lines 116–165, 426–452) -/

/-- Result bundle (sssp.rs lines 118–125). -/
structure SSSpResult where
  distances : List F64
  predecessors : List Int
  nodes_visited : Nat
  edges_relaxed : Nat
  wall_time_ms : F64
  algorithm_used : String
deriving DecidableEq

/-- Priority-queue entry (sssp.rs lines 428–431). -/
structure HeapNode where
  node : Nat
  distance : F64
deriving DecidableEq

/-- Outcome of `solve`: the `Err(JsValue)` case carrying the offending source,
a panic (out-of-bounds `Vec` index or `.unwrap()` on `None`), or `Ok`. -/
inductive SolveOutcome where
  | invalidSource (idx : Nat)
  | trap
  | ok (r : SSSpResult)
deriving DecidableEq

/-- Mutable state of `solve_dijkstra_optimized` (sssp.rs lines 282–294).
`BinaryHeap` is modelled as the list of live entries; `pop` removes a
minimum-distance entry (`HeapNode`'s reversed `Ord`, sssp.rs lines 441–446);
the tie-break among equal keys is unspecified in `BinaryHeap`, fixed here as
the earliest-pushed entry. -/
structure DState where
  distances : List F64
  predecessors : List Int
  visited : List Bool
  heap : List HeapNode
  nodes_visited : Nat
  edges_relaxed : Nat
deriving DecidableEq

/-- `BinaryHeap::pop` under the reversed comparator: removes an entry with
minimal `distance`, returning it and the remaining entries. -/
def popMin : List HeapNode → Option (HeapNode × List HeapNode)
  | [] => none
  | h :: t =>
    match popMin t with
    | none => some (h, t)
    | some (m, r) => if F64.lt m.distance h.distance then some (m, h :: r) else some (h, t)

theorem popMin_eq_none_iff (l : List HeapNode) : popMin l = none ↔ l = [] := by
  cases l with
  | nil => simp [popMin]
  | cons h t =>
    simp only [popMin]
    rcases popMin t with _ | ⟨m, r⟩ <;> simp
    split <;> simp

theorem popMin_cons_cases (a : HeapNode) (t : List HeapNode) {m : HeapNode}
    {r : List HeapNode} (h : popMin (a :: t) = some (m, r)) :
    (t = [] ∧ m = a ∧ r = []) ∨
    (∃ m' r', popMin t = some (m', r') ∧
      ((F64.lt m'.distance a.distance = true ∧ m = m' ∧ r = a :: r') ∨
       (F64.lt m'.distance a.distance = false ∧ m = a ∧ r = t))) := by
  rcases ht : popMin t with _ | ⟨m', r'⟩
  · left
    simp only [popMin, ht] at h
    have ht' := (popMin_eq_none_iff t).mp ht
    cases h
    exact ⟨ht', rfl, ht'⟩
  · right
    refine ⟨m', r', rfl, ?_⟩
    simp only [popMin, ht] at h
    by_cases hlt : F64.lt m'.distance a.distance = true
    · rw [if_pos hlt] at h
      cases h
      exact Or.inl ⟨hlt, rfl, rfl⟩
    · rw [if_neg hlt] at h
      cases h
      exact Or.inr ⟨by simpa using hlt, rfl, rfl⟩

theorem popMin_perm {l : List HeapNode} {m : HeapNode} {r : List HeapNode}
    (h : popMin l = some (m, r)) : l.Perm (m :: r) := by
  induction l generalizing m r with
  | nil => simp [popMin] at h
  | cons a t ih =>
    rcases popMin_cons_cases a t h with ⟨rfl, rfl, rfl⟩ | ⟨m', r', ht, hc⟩
    · exact List.Perm.refl _
    · rcases hc with ⟨hlt, rfl, rfl⟩ | ⟨hnlt, rfl, rfl⟩
      · exact (List.Perm.cons a (ih ht)).trans (List.Perm.swap _ _ _)
      · exact List.Perm.refl _

theorem popMin_length {l : List HeapNode} {m : HeapNode} {r : List HeapNode}
    (h : popMin l = some (m, r)) : l.length = r.length + 1 := by
  simpa using (popMin_perm h).length_eq

theorem popMin_mem {l : List HeapNode} {m : HeapNode} {r : List HeapNode}
    (h : popMin l = some (m, r)) : m ∈ l :=
  (popMin_perm h).mem_iff.mpr (List.mem_cons_self _ _)

theorem popMin_rest_subset {l : List HeapNode} {m : HeapNode} {r : List HeapNode}
    (h : popMin l = some (m, r)) : ∀ e ∈ r, e ∈ l := by
  intro e he
  exact (popMin_perm h).mem_iff.mpr (List.mem_cons_of_mem _ he)

theorem popMin_mem_rest_of_ne {l : List HeapNode} {m : HeapNode} {r : List HeapNode}
    (h : popMin l = some (m, r)) : ∀ e ∈ l, e ≠ m → e ∈ r := by
  intro e he hne
  rcases List.mem_cons.mp ((popMin_perm h).mem_iff.mp he) with h' | h'
  · exact absurd h' hne
  · exact h'

/-- Minimality of the popped entry, on NaN-free keys. -/
theorem popMin_min {l : List HeapNode} {m : HeapNode} {r : List HeapNode}
    (hk : ∀ x ∈ l, ∃ q, x.distance = F64.fin q)
    (h : popMin l = some (m, r)) :
    ∀ x ∈ l, F64.lt x.distance m.distance = false := by
  induction l generalizing m r with
  | nil => simp [popMin] at h
  | cons a t ih =>
    rcases popMin_cons_cases a t h with ⟨rfl, rfl, rfl⟩ | ⟨m', r', ht, hc⟩
    · intro x hx
      simp at hx
      subst hx
      exact F64.lt_irrefl _
    · have ihmin := ih (fun x hx => hk x (List.mem_cons_of_mem _ hx)) ht
      rcases hk a (List.mem_cons_self _ _) with ⟨qa, hqa⟩
      rcases hk m' (List.mem_cons_of_mem _ (popMin_mem ht)) with ⟨qm, hqm⟩
      rcases hc with ⟨hlt, rfl, rfl⟩ | ⟨hnlt, rfl, rfl⟩
      · intro x hx
        rcases List.mem_cons.mp hx with rfl | hx'
        · rw [hqa, hqm] at hlt ⊢
          simp only [F64.lt, decide_eq_true_eq] at hlt
          simp only [F64.lt, decide_eq_false_iff_not, not_lt]
          linarith
        · exact ihmin x hx'
      · intro x hx
        rcases List.mem_cons.mp hx with rfl | hx'
        · exact F64.lt_irrefl _
        · rcases hk x (List.mem_cons_of_mem _ hx') with ⟨qx, hqx⟩
          have hxm := ihmin x hx'
          rw [hqx, hqm] at hxm
          rw [hqm, hqa] at hnlt
          rw [hqx, hqa]
          simp only [F64.lt, decide_eq_false_iff_not, not_lt] at hxm hnlt ⊢
          linarith

/-! ## The Dijkstra solver core (sssp.rs lines 281–342) -/

/-- Body of the inner `for edge_idx in edge_start..edge_end` loop (sssp.rs
lines 313–331), over the list of remaining edge indices.  `none` models a
panic on an out-of-bounds index. -/
def relaxEdges (g : SparseGraph) (current : Nat) (current_dist : F64) :
    List Nat → DState → Option DState
  | [], st => some st
  | eIdx :: rest, st =>
    match g.destinations[eIdx]?, g.weights[eIdx]? with
    | some neighbor, some weight =>
      let new_distance := current_dist.add weight
      let st1 : DState := { st with edges_relaxed := st.edges_relaxed + 1 }
      match st1.distances[neighbor]? with
      | some dnb =>
        if F64.lt new_distance dnb then
          let st2 : DState := { st1 with
            distances := st1.distances.set neighbor new_distance,
            predecessors := st1.predecessors.set neighbor (Int.ofNat current) }
          match st2.visited[neighbor]? with
          | some vn =>
            relaxEdges g current current_dist rest
              (if vn then st2
               else { st2 with heap := st2.heap ++ [⟨neighbor, new_distance⟩] })
          | none => none
        else relaxEdges g current current_dist rest st1
      | none => none
    | _, _ => none

/-- Number of `false` entries of the `visited` array (the loop's termination
measure, together with the heap size). -/
def countUnvisited (l : List Bool) : Nat := l.countP (fun b => !b)

theorem relaxEdges_visited (g : SparseGraph) (current : Nat) (cd : F64) :
    ∀ (L : List Nat) (st st' : DState),
      relaxEdges g current cd L st = some st' → st'.visited = st.visited := by
  intro L
  induction L with
  | nil =>
    intro st st' h
    simp only [relaxEdges] at h
    cases h
    rfl
  | cons e rest ih =>
    intro st st' h
    simp only [relaxEdges] at h
    split at h
    · split at h
      · split at h
        · split at h
          · refine (ih _ _ h).trans ?_
            split
            · rfl
            · rfl
          · cases h
        · have h2 := ih _ _ h
          exact h2
      · cases h
    · cases h

theorem countUnvisited_set_true {l : List Bool} {i : Nat} (h : l[i]? = some false) :
    countUnvisited (l.set i true) < countUnvisited l := by
  induction l generalizing i with
  | nil => simp at h
  | cons b t ih =>
    cases i with
    | zero =>
      simp at h
      subst h
      simp [countUnvisited, List.countP_cons]
    | succ j =>
      simp at h
      have := ih h
      simp only [List.set, countUnvisited, List.countP_cons] at *
      omega

/-- One iteration of the `while let Some(...) = heap.pop()` loop: either the
loop continues with an updated state, or it finishes (`done (some st)` when
the heap is empty, `done none` on a panic). -/
inductive StepRes where
  | cont (st : DState)
  | done (res : Option DState)

/-- Rest of the loop body after the popped node has been marked visited
(sssp.rs lines 304–331): the stale-entry check and the edge relaxation;
`st1` is the state with `visited[current]` already set and `nodes_visited`
already incremented. -/
def dijkstraStepGo (g : SparseGraph) (hn : HeapNode) (st1 : DState) : StepRes :=
  match st1.distances[hn.node]? with
  | none => .done none
  | some dc =>
    if F64.lt dc hn.distance then .cont st1
    else
      match g.outgoing_edges[hn.node]?, g.outgoing_edges[hn.node + 1]? with
      | some edge_start, some edge_end =>
        match relaxEdges g hn.node hn.distance
            (List.range' edge_start (edge_end - edge_start)) st1 with
        | none => .done none
        | some st2 => .cont st2
      | _, _ => .done none

/-- Loop body of `solve_dijkstra_optimized` (sssp.rs lines 296–332). -/
def dijkstraStep (g : SparseGraph) (st : DState) : StepRes :=
  match popMin st.heap with
  | none => .done (some st)
  | some (hn, rest) =>
    match st.visited[hn.node]? with
    | none => .done none
    | some true => .cont { st with heap := rest }
    | some false =>
      dijkstraStepGo g hn
        { st with
          visited := st.visited.set hn.node true,
          nodes_visited := st.nodes_visited + 1,
          heap := rest }

theorem dijkstraStepGo_cont_visited {g : SparseGraph} {hn : HeapNode}
    {st1 st' : DState} (h : dijkstraStepGo g hn st1 = .cont st') :
    st'.visited = st1.visited := by
  unfold dijkstraStepGo at h
  split at h
  · cases h
  · split at h
    · cases h
      rfl
    · split at h
      · split at h
        · cases h
        · rename_i hre
          cases h
          exact relaxEdges_visited _ _ _ _ _ _ hre
      · cases h

theorem dijkstraStep_decreases {g : SparseGraph} {st st' : DState}
    (h : dijkstraStep g st = .cont st') :
    Prod.Lex (· < ·) (· < ·) (countUnvisited st'.visited, st'.heap.length)
      (countUnvisited st.visited, st.heap.length) := by
  unfold dijkstraStep at h
  split at h
  · cases h
  · rename_i hn rest hpm
    have hlen := popMin_length hpm
    split at h
    · cases h
    · cases h
      apply Prod.Lex.right
      simp
      omega
    · rename_i hvis
      have hv := dijkstraStepGo_cont_visited h
      apply Prod.Lex.left
      rw [hv]
      exact countUnvisited_set_true hvis

/-- The `while let` loop itself: iterate `dijkstraStep` until it finishes. -/
def dijkstraLoop (g : SparseGraph) (st : DState) : Option DState :=
  match hs : dijkstraStep g st with
  | .done r => r
  | .cont st' => dijkstraLoop g st'
termination_by (countUnvisited st.visited, st.heap.length)
decreasing_by exact dijkstraStep_decreases hs

theorem dijkstraLoop_eq (g : SparseGraph) (st : DState) :
    dijkstraLoop g st =
      match dijkstraStep g st with
      | .done r => r
      | .cont st' => dijkstraLoop g st' := by
  rw [dijkstraLoop.eq_def]
  rcases dijkstraStep g st with st' | r <;> rfl

/-- Fuel-indexed evaluator for the loop, used to compute concrete runs:
`some r` means the loop finished with result `r` within `fuel` iterations. -/
def fuelLoop (g : SparseGraph) : Nat → DState → Option (Option DState)
  | 0, _ => none
  | fuel + 1, st =>
    match dijkstraStep g st with
    | .done r => some r
    | .cont st' => fuelLoop g fuel st'

theorem fuelLoop_sound (g : SparseGraph) :
    ∀ (fuel : Nat) (st : DState) (r : Option DState),
      fuelLoop g fuel st = some r → dijkstraLoop g st = r := by
  intro fuel
  induction fuel with
  | zero => intro st r h; simp [fuelLoop] at h
  | succ n ih =>
    intro st r h
    rw [dijkstraLoop_eq]
    simp only [fuelLoop] at h
    rcases hs : dijkstraStep g st with st' | r'
    · rw [hs] at h
      exact ih _ _ h
    · rw [hs] at h
      cases h
      rfl

/-- Initial solver state (sssp.rs lines 282–291); only built when
`source < node_count` (otherwise the write `distances[source] = 0.0`
panics first). -/
def dijkstraInit (g : SparseGraph) (source : Nat) : DState :=
  { distances := (List.replicate g.node_count F64.inf).set source (F64.fin 0)
    predecessors := List.replicate g.node_count (-1)
    visited := List.replicate g.node_count false
    heap := [⟨source, F64.fin 0⟩]
    nodes_visited := 0
    edges_relaxed := 0 }

/-- `solve_dijkstra_optimized` (sssp.rs lines 281–342).  The guard models the
panicking write `distances[source] = 0.0` when `source ≥ node_count`; the
function is only ever called with `source < node_count` from `solve`. -/
def dijkstraMain (g : SparseGraph) (source : Nat) : SolveOutcome :=
  if source < g.node_count then
    match dijkstraLoop g (dijkstraInit g source) with
    | none => .trap
    | some st => .ok
        { distances := st.distances
          predecessors := st.predecessors
          nodes_visited := st.nodes_visited
          edges_relaxed := st.edges_relaxed
          wall_time_ms := F64.fin 0
          algorithm_used := "dijkstra-optimized" }
  else .trap

/-! ## Hierarchical decomposition and the solver (sssp.rs lines 159–424) -/

/-- sssp.rs lines 461–466. -/
structure Cluster where
  id : Nat
  nodes : List Nat
  boundary_nodes : List Nat
deriving DecidableEq

/-- sssp.rs lines 455–459. -/
structure HierarchicalDecomposition where
  clusters : List Cluster
  cluster_assignment : List Nat
deriving DecidableEq

/-- The `for node in 0..n` loop of `build_hierarchical_decomposition`
(sssp.rs lines 358–372), threading
`(cluster_assignment, clusters, cluster_nodes, current_cluster)`. -/
def buildDecompLoop (cap : Nat) :
    List Nat → List Nat × List Cluster × List Nat × Nat →
      List Nat × List Cluster × List Nat × Nat
  | [], acc => acc
  | node :: rest, (assign, clusters, cluster_nodes, cur) =>
    let cluster_nodes' := cluster_nodes ++ [node]
    let assign' := assign.set node cur
    if cap ≤ cluster_nodes'.length then
      buildDecompLoop cap rest
        (assign', clusters ++ [⟨cur, cluster_nodes', []⟩], [], cur + 1)
    else
      buildDecompLoop cap rest (assign', clusters, cluster_nodes', cur)

/-- Inner edge loop of `identify_boundary_nodes` (sssp.rs lines 403–410):
scan `node`'s outgoing edges, and on the first edge whose endpoints lie in
different clusters insert both endpoints into the boundary set and break.
The `HashSet` is modelled as a duplicate-free list (only membership is ever
observed).  `none` models a panic on an out-of-bounds index. -/
def boundaryEdgeScan (g : SparseGraph) (assign : List Nat) (node : Nat) :
    List Nat → List Nat → Option (List Nat)
  | [], bset => some bset
  | eIdx :: rest, bset =>
    match g.destinations[eIdx]? with
    | none => none
    | some neighbor =>
      match assign[neighbor]?, assign[node]? with
      | some aN, some aSelf =>
        if aN ≠ aSelf then some (List.insert neighbor (List.insert node bset))
        else boundaryEdgeScan g assign node rest bset
      | _, _ => none

/-- Per-node part of the boundary scan (sssp.rs lines 400–410). -/
def boundaryNodeScan (g : SparseGraph) (assign : List Nat) (node : Nat)
    (bset : List Nat) : Option (List Nat) :=
  match g.outgoing_edges[node]?, g.outgoing_edges[node + 1]? with
  | some edge_start, some edge_end =>
    boundaryEdgeScan g assign node (List.range' edge_start (edge_end - edge_start)) bset
  | _, _ => none

/-- Fold of `boundaryNodeScan` over a node list, then over all clusters
(sssp.rs lines 398–412). -/
def boundaryNodesScan (g : SparseGraph) (assign : List Nat) :
    List Nat → List Nat → Option (List Nat)
  | [], bset => some bset
  | node :: rest, bset =>
    match boundaryNodeScan g assign node bset with
    | none => none
    | some bset' => boundaryNodesScan g assign rest bset'

def boundaryClustersScan (g : SparseGraph) (assign : List Nat) :
    List Cluster → List Nat → Option (List Nat)
  | [], bset => some bset
  | c :: rest, bset =>
    match boundaryNodesScan g assign c.nodes bset with
    | none => none
    | some bset' => boundaryClustersScan g assign rest bset'

/-- `identify_boundary_nodes` (sssp.rs lines 395–423): compute the global
boundary set, then refresh each cluster's `boundary_nodes` by filtering its
nodes through set membership. -/
def identifyBoundaryNodes (g : SparseGraph) (assign : List Nat)
    (clusters : List Cluster) : Option (List Cluster) :=
  match boundaryClustersScan g assign clusters [] with
  | none => none
  | some bset =>
    some (clusters.map (fun c =>
      { c with boundary_nodes := c.nodes.filter (fun x => bset.contains x) }))

/-- `build_hierarchical_decomposition` (sssp.rs lines 345–392).
`(n as f64).sqrt() as usize` is modelled by `Nat.sqrt` (exact for the
perfect-square-free rounding involved at these magnitudes). -/
def buildHierarchicalDecomposition (g : SparseGraph) :
    Option HierarchicalDecomposition :=
  let n := g.node_count
  let max_cluster_size := max 32 (Nat.sqrt n)
  match buildDecompLoop max_cluster_size (List.range n)
      (List.replicate n 0, [], [], 0) with
  | (assign, clusters, cluster_nodes, cur) =>
    let clusters' :=
      if cluster_nodes.isEmpty then clusters
      else clusters ++ [⟨cur, cluster_nodes, []⟩]
    match identifyBoundaryNodes g assign clusters' with
    | none => none
    | some clusters2 => some ⟨clusters2, assign⟩

/-- `EnhancedSSSpSolver` (sssp.rs lines 161–165). -/
structure EnhancedSSSpSolver where
  graph : SparseGraph
  hop_sets_built : Bool
  hierarchical_decomposition : Option HierarchicalDecomposition
deriving DecidableEq

namespace EnhancedSSSpSolver

/-- Constructor (sssp.rs lines 171–179). -/
def new (graph : SparseGraph) : EnhancedSSSpSolver :=
  { graph := graph, hop_sets_built := false, hierarchical_decomposition := none }

/-- `preprocess` (sssp.rs lines 183–210): validate, then build and store the
decomposition and set the hop-set flag.  `none` models a panic inside the
boundary scan. -/
def preprocess (s : EnhancedSSSpSolver) : Option (Bool × EnhancedSSSpSolver) :=
  if s.graph.validate then
    match buildHierarchicalDecomposition s.graph with
    | none => none
    | some d =>
      some (true,
        { s with hierarchical_decomposition := some d, hop_sets_built := true })
  else some (false, s)

/-- `solve_enhanced` (sssp.rs lines 250–278).  The `source < n` guard models
the write `distances[source] = 0.0` on the locally allocated array (line
257); the local arrays and counters are otherwise dead and not modelled
further.  The `.unwrap()` of the decomposition and the read
`cluster_assignment[source]` are panics when they fail. -/
def solve_enhanced (s : EnhancedSSSpSolver) (source : Nat) : SolveOutcome :=
  if source < s.graph.node_count then
    match s.hierarchical_decomposition with
    | none => .trap
    | some decomp =>
      match decomp.cluster_assignment[source]? with
      | none => .trap
      | some _source_cluster =>
        match dijkstraMain s.graph source with
        | .ok d => .ok
            { distances := d.distances
              predecessors := d.predecessors
              nodes_visited := d.nodes_visited
              edges_relaxed := d.edges_relaxed
              wall_time_ms := F64.fin 0
              algorithm_used := "enhanced-sssp" }
        | o => o
  else .trap

/-- `solve` (sssp.rs lines 214–247): the source-range check, the dispatch on
`hop_sets_built && hierarchical_decomposition.is_some()`, and the final
overwrite of `wall_time_ms` with the elapsed host time (constantly `0`
here). -/
def solve (s : EnhancedSSSpSolver) (source : Nat) : SolveOutcome :=
  if s.graph.node_count ≤ source then .invalidSource source
  else
    match (if s.hop_sets_built && s.hierarchical_decomposition.isSome
           then s.solve_enhanced source
           else dijkstraMain s.graph source) with
    | .ok r => .ok { r with wall_time_ms := F64.fin 0 }
    | o => o

end EnhancedSSSpSolver

/-! ## Concrete graphs and evaluated runs -/

theorem dijkstraMain_eval {g : SparseGraph} {source fuel : Nat} {st : DState}
    (hs : source < g.node_count)
    (hf : fuelLoop g fuel (dijkstraInit g source) = some (some st)) :
    dijkstraMain g source = .ok
      { distances := st.distances
        predecessors := st.predecessors
        nodes_visited := st.nodes_visited
        edges_relaxed := st.edges_relaxed
        wall_time_ms := F64.fin 0
        algorithm_used := "dijkstra-optimized" } := by
  unfold dijkstraMain
  rw [if_pos hs, fuelLoop_sound g fuel _ _ hf]

theorem dijkstraMain_trap_eval {g : SparseGraph} {source fuel : Nat}
    (hs : source < g.node_count)
    (hf : fuelLoop g fuel (dijkstraInit g source) = some none) :
    dijkstraMain g source = .trap := by
  unfold dijkstraMain
  rw [if_pos hs, fuelLoop_sound g fuel _ _ hf]

/-- The spec §8 concrete scenario: 4 nodes, edges `(0→1,1)`, `(0→2,5)`,
`(1→2,2)`, `(2→3,1)` in CSR form. -/
def gScenario : SparseGraph :=
  SparseGraph.new 4 [0, 2, 3, 4, 4] [1, 2, 2, 3]
    [F64.fin 1, F64.fin 5, F64.fin 2, F64.fin 1]

/-- A graph that passes `validate` although its offsets overrun the (empty)
edge arrays: `validate` never checks `offsets[i] ≤ edge_count`. -/
def gHugeOffsets : SparseGraph := SparseGraph.new 1 [0, 1] [] []

/-- A structurally broken graph (offsets array too short): fails `validate`,
and `solve` panics on it. -/
def gShortOffsets : SparseGraph := SparseGraph.new 1 [] [] []

/-- Structurally fine graph with a negative weight: fails `validate`, but
`solve` still runs to completion on it. -/
def gNegWeight : SparseGraph := SparseGraph.new 2 [0, 1, 1] [1] [F64.fin (-3)]

/-- Weights array longer than `edge_count` (= destinations length). -/
def gWrongWLen : SparseGraph := SparseGraph.new 1 [0, 0] [] [F64.fin 1]

/-- Non-monotonic offsets. -/
def gNonMono : SparseGraph := SparseGraph.new 1 [1, 0] [] []

/-- Destination out of range. -/
def gBadDest : SparseGraph := SparseGraph.new 1 [0, 1] [5] [F64.fin 1]

/-- Negative weight, minimal. -/
def gBadWeight : SparseGraph := SparseGraph.new 1 [0, 1] [0] [F64.fin (-1)]

/-- Final loop state of the scenario run from source 0. -/
def scenarioFinal : DState :=
  { distances := [F64.fin 0, F64.fin 1, F64.fin 3, F64.fin 4]
    predecessors := [-1, 0, 1, 2]
    visited := [true, true, true, true]
    heap := []
    nodes_visited := 4
    edges_relaxed := 4 }

theorem scenario_fuel :
    fuelLoop gScenario 10 (dijkstraInit gScenario 0) = some (some scenarioFinal) := by
  with_unfolding_all decide

/-- The result the scenario run produces (`-1` is the "no predecessor"
sentinel). -/
def rScenario : SSSpResult :=
  { distances := [F64.fin 0, F64.fin 1, F64.fin 3, F64.fin 4]
    predecessors := [-1, 0, 1, 2]
    nodes_visited := 4
    edges_relaxed := 4
    wall_time_ms := F64.fin 0
    algorithm_used := "dijkstra-optimized" }

theorem scenario_dijkstra : dijkstraMain gScenario 0 = .ok rScenario :=
  dijkstraMain_eval (by decide) scenario_fuel

theorem scenario_solve : (EnhancedSSSpSolver.new gScenario).solve 0 = .ok rScenario := by
  have h := scenario_dijkstra
  simp only [EnhancedSSSpSolver.solve, EnhancedSSSpSolver.new] at *
  rw [if_neg (by decide)]
  simp [h, rScenario]

theorem hugeOffsets_fuel :
    fuelLoop gHugeOffsets 2 (dijkstraInit gHugeOffsets 0) = some none := by
  with_unfolding_all decide

theorem hugeOffsets_solve : (EnhancedSSSpSolver.new gHugeOffsets).solve 0 = .trap := by
  have h := dijkstraMain_trap_eval (g := gHugeOffsets) (by decide) hugeOffsets_fuel
  simp only [EnhancedSSSpSolver.solve, EnhancedSSSpSolver.new] at *
  rw [if_neg (by decide)]
  simp [h]

theorem shortOffsets_fuel :
    fuelLoop gShortOffsets 2 (dijkstraInit gShortOffsets 0) = some none := by
  with_unfolding_all decide

theorem shortOffsets_solve : (EnhancedSSSpSolver.new gShortOffsets).solve 0 = .trap := by
  have h := dijkstraMain_trap_eval (g := gShortOffsets) (by decide) shortOffsets_fuel
  simp only [EnhancedSSSpSolver.solve, EnhancedSSSpSolver.new] at *
  rw [if_neg (by decide)]
  simp [h]

/-- Final loop state of the negative-weight run from source 0. -/
def negWeightFinal : DState :=
  { distances := [F64.fin 0, F64.fin (-3)]
    predecessors := [-1, 0]
    visited := [true, true]
    heap := []
    nodes_visited := 2
    edges_relaxed := 1 }

theorem negWeight_fuel :
    fuelLoop gNegWeight 5 (dijkstraInit gNegWeight 0) = some (some negWeightFinal) := by
  with_unfolding_all decide

/-- The result of the negative-weight run. -/
def rNegWeight : SSSpResult :=
  { distances := [F64.fin 0, F64.fin (-3)]
    predecessors := [-1, 0]
    nodes_visited := 2
    edges_relaxed := 1
    wall_time_ms := F64.fin 0
    algorithm_used := "dijkstra-optimized" }

theorem negWeight_solve : (EnhancedSSSpSolver.new gNegWeight).solve 0 = .ok rNegWeight := by
  have h := dijkstraMain_eval (g := gNegWeight) (by decide) negWeight_fuel
  simp only [EnhancedSSSpSolver.solve, EnhancedSSSpSolver.new] at *
  rw [if_neg (by decide)]
  simp [h, negWeightFinal, rNegWeight]

/-! ## Specification-side notions: edges, reachability, predecessor chains -/

/-- `(u,v,w)` is an edge of the CSR graph: some edge slot in `u`'s offset
range holds destination `v` and weight `w` (spec §3: the outgoing edges of
node `i` are `destinations[offsets[i] .. offsets[i+1])`). -/
def IsEdge (g : SparseGraph) (u v : Nat) (w : F64) : Prop :=
  u < g.node_count ∧
  ∃ e, g.outgoing_edges.getD u 0 ≤ e ∧ e < g.outgoing_edges.getD (u + 1) 0 ∧
    g.destinations[e]? = some v ∧ g.weights[e]? = some w

/-- One directed step along some edge. -/
def EdgeStep (g : SparseGraph) (u v : Nat) : Prop := ∃ w, IsEdge g u v w

/-- `v` is reachable from `s` along directed edges. -/
def Reaches (g : SparseGraph) (s v : Nat) : Prop :=
  Relation.ReflTransGen (EdgeStep g) s v

/-- Out-degree of node `u` (length of its CSR slice). -/
def outdeg (g : SparseGraph) (u : Nat) : Nat :=
  g.outgoing_edges.getD (u + 1) 0 - g.outgoing_edges.getD u 0

/-- One step of following the `predecessors` map: move to `predecessors[v]`
when that is a node index, stay put on the `-1` sentinel (and out of range
reads give the sentinel). -/
def predStep (pred : List Int) (v : Nat) : Nat :=
  match pred.getD v (-1) with
  | Int.ofNat u => u
  | Int.negSucc _ => v

/-- Iterate `predStep` `k` times. -/
def predIterate (pred : List Int) : Nat → Nat → Nat
  | 0, v => v
  | k + 1, v => predIterate pred k (predStep pred v)

/-- The predecessor chain from `v` reaches `src` in exactly `k` steps, all
intermediate nodes being `visited`. -/
def ChainTo (pred : List Int) (visited : List Bool) (src : Nat) : Nat → Nat → Prop
  | 0, v => v = src
  | k + 1, v => ∃ u, pred.getD v (-1) = Int.ofNat u ∧
      visited.getD u false = true ∧ ChainTo pred visited src k u

theorem ChainTo.predIterate_eq {pred : List Int} {visited : List Bool} {src : Nat} :
    ∀ {k v}, ChainTo pred visited src k v → predIterate pred k v = src := by
  intro k
  induction k with
  | zero => intro v h; exact h
  | succ j ih =>
    intro v h
    rcases h with ⟨u, hp, _, hc⟩
    have : predStep pred v = u := by
      unfold predStep
      rw [hp]
    rw [predIterate, this]
    exact ih hc

theorem ChainTo.chain_mono {pred pred' : List Int} {visited visited' : List Bool} {src : Nat}
    (hagree : ∀ x, visited.getD x false = true → pred'.getD x (-1) = pred.getD x (-1))
    (hmono : ∀ x, visited.getD x false = true → visited'.getD x false = true) :
    ∀ {k v}, visited.getD v false = true → ChainTo pred visited src k v →
      ChainTo pred' visited' src k v := by
  intro k
  induction k with
  | zero => intro v _ h; exact h
  | succ j ih =>
    intro v hv h
    rcases h with ⟨u, hp, hu, hc⟩
    exact ⟨u, (hagree v hv).trans hp, hmono u hu, ih hu hc⟩

namespace DState

/-- `distances[v]` as a total function (reads outside the array never occur
in the proofs below without a bounds fact). -/
def dist (st : DState) (v : Nat) : F64 := st.distances.getD v F64.inf

def vis (st : DState) (v : Nat) : Bool := st.visited.getD v false

def pred (st : DState) (v : Nat) : Int := st.predecessors.getD v (-1)

end DState

/-- A non-negative finite double. -/
def FinNN (x : F64) : Prop := ∃ q, x = F64.fin q ∧ 0 ≤ q

/-- Shape of every entry of the distances array: `+∞` or non-negative
finite. -/
def DistShape (x : F64) : Prop := x = F64.inf ∨ FinNN x

theorem DistShape.not_nan {x : F64} (h : DistShape x) : x = F64.inf ∨ ∃ q, x = F64.fin q := by
  rcases h with h | ⟨q, rfl, _⟩
  · exact Or.inl h
  · exact Or.inr ⟨q, rfl⟩

/-- Edge slot `e` has been relaxed from the current node (tentative distance
`qc`): its target's distance is already below `qc + w`. -/
def RelaxedAt (g : SparseGraph) (qc : ℚ) (st : DState) (e : Nat) : Prop :=
  ∀ v w, g.destinations[e]? = some v → g.weights[e]? = some w →
    F64.Fle (st.dist v) ((F64.fin qc).add w)

/-- Sum of the out-degrees of the visited nodes. -/
def visitedOutdegSum (g : SparseGraph) (visited : List Bool) : Nat :=
  ∑ u in Finset.range g.node_count, if visited.getD u false = true then outdeg g u else 0

/-! ### Small list-indexing helpers -/

theorem getD_set_self {α : Type} {l : List α} {i : Nat} (a d : α) (h : i < l.length) :
    (l.set i a).getD i d = a := by
  rw [List.getD_eq_getElem?_getD, List.getElem?_set_self]
  · simp [h]
  · exact h

theorem getD_set_ne {α : Type} {l : List α} {i j : Nat} (a d : α) (h : i ≠ j) :
    (l.set i a).getD j d = l.getD j d := by
  rw [List.getD_eq_getElem?_getD, List.getElem?_set_ne h, ← List.getD_eq_getElem?_getD]

theorem getD_of_getElem? {α : Type} {l : List α} {i : Nat} {a : α} (d : α)
    (h : l[i]? = some a) : l.getD i d = a := by
  rw [List.getD_eq_getElem?_getD, h]
  rfl

theorem getElem?_eq_some_getD {α : Type} {l : List α} {i : Nat} (d : α) (h : i < l.length) :
    l[i]? = some (l.getD i d) := by
  rw [List.getD_eq_getElem?_getD, List.getElem?_eq_getElem h]
  rfl

theorem countP_true_set {l : List Bool} {i : Nat} (h : l[i]? = some false) :
    (l.set i true).countP (fun b => b) = l.countP (fun b => b) + 1 := by
  induction l generalizing i with
  | nil => simp at h
  | cons b t ih =>
    cases i with
    | zero =>
      simp at h
      subst h
      simp [List.countP_cons]
    | succ j =>
      simp at h
      have := ih h
      simp only [List.set, List.countP_cons, this]
      omega

/-! ## Graph hypotheses -/

/-- What `validate = true` guarantees (used by the solver proofs). -/
structure GraphOK (g : SparseGraph) : Prop where
  hoff : g.outgoing_edges.length = g.node_count + 1
  hmono : ∀ i, i < g.node_count → g.outgoing_edges.getD i 0 ≤ g.outgoing_edges.getD (i + 1) 0
  hdst : ∀ d ∈ g.destinations, d < g.node_count
  hwts : ∀ w ∈ g.weights, FinNN w

theorem graphOK_of_validate {g : SparseGraph} (h : g.validate = true) : GraphOK g := by
  rcases (validate_iff_wellFormed g).mp h with ⟨h1, _, _, h4, h5, h6⟩
  refine ⟨h1, h4, h5, ?_⟩
  intro w hw
  rcases h6 w hw with ⟨hlt, hfin⟩
  cases w with
  | fin q =>
    refine ⟨q, rfl, ?_⟩
    simp only [F64.lt, decide_eq_false_iff_not, not_lt] at hlt
    exact hlt
  | inf => simp [F64.isFinite] at hfin
  | ninf => simp [F64.isFinite] at hfin
  | nan => simp [F64.isFinite] at hfin

/-- Structural soundness sufficient for `solve` to run to completion: the
spec's structural invariants 1–3 plus parallel-array lengths, plus the
bound `offsets[node_count] ≤ edge_count` that `validate` does **not**
check. Weights are unconstrained. -/
def StructOK (g : SparseGraph) : Prop :=
  g.outgoing_edges.length = g.node_count + 1 ∧
  (∀ i, i < g.node_count → g.outgoing_edges.getD i 0 ≤ g.outgoing_edges.getD (i + 1) 0) ∧
  (∀ d ∈ g.destinations, d < g.node_count) ∧
  g.destinations.length = g.edge_count ∧
  g.weights.length = g.edge_count ∧
  g.outgoing_edges.getD g.node_count 0 ≤ g.edge_count

instance (g : SparseGraph) : Decidable (StructOK g) := by
  unfold StructOK
  infer_instance

/-- Monotone offsets chain from a single-step bound. -/
theorem offsets_chain {g : SparseGraph}
    (hmono : ∀ i, i < g.node_count → g.outgoing_edges.getD i 0 ≤ g.outgoing_edges.getD (i + 1) 0) :
    ∀ {i j}, i ≤ j → j ≤ g.node_count →
      g.outgoing_edges.getD i 0 ≤ g.outgoing_edges.getD j 0 := by
  intro i j hij hj
  induction j with
  | zero =>
    cases Nat.le_zero.mp hij
    exact le_rfl
  | succ k ih =>
    rcases Nat.lt_or_ge i (k + 1) with h | h
    · have h1 := ih (Nat.lt_succ_iff.mp h) (Nat.le_of_succ_le hj)
      exact h1.trans (hmono k (Nat.lt_of_succ_le hj))
    · have : i = k + 1 := Nat.le_antisymm hij h
      subst this
      exact le_rfl

theorem reaches_lt {g : SparseGraph} {source v : Nat} (hs : source < g.node_count)
    (hdst : ∀ d ∈ g.destinations, d < g.node_count) (h : Reaches g source v) :
    v < g.node_count := by
  induction h with
  | refl => exact hs
  | tail _ hstep ih =>
    rcases hstep with ⟨w, _, e, _, _, hde, _⟩
    exact hdst _ (List.getElem?_mem hde)

/-! ## The solver invariant -/

/-- Facts preserved through every phase of the Dijkstra loop (relative to a
graph `g` and source node). -/
structure CoreInv (g : SparseGraph) (source : Nat) (st : DState) : Prop where
  hdlen : st.distances.length = g.node_count
  hplen : st.predecessors.length = g.node_count
  hvlen : st.visited.length = g.node_count
  hheapnode : ∀ e ∈ st.heap, e.node < g.node_count
  hheapkey : ∀ e ∈ st.heap, FinNN e.distance
  hshape : ∀ v, v < g.node_count → DistShape (st.dist v)
  hkey_ge : ∀ e ∈ st.heap, F64.Fle (st.dist e.node) e.distance
  hvis_min : ∀ u, u < g.node_count → st.vis u = true →
    ∀ e ∈ st.heap, F64.Fle (st.dist u) e.distance
  hpending : ∀ x, x < g.node_count → st.vis x = false → st.dist x ≠ F64.inf →
    ∃ e ∈ st.heap, e.node = x ∧ F64.Fle e.distance (st.dist x)
  hsource0 : st.dist source = F64.fin 0
  hvis_fin : ∀ u, u < g.node_count → st.vis u = true → st.dist u ≠ F64.inf
  hheap_pred : ∀ e ∈ st.heap, e.node = source ∨ st.pred e.node ≠ -1
  hpred_vis : ∀ x, x < g.node_count → st.pred x ≠ -1 →
    ∃ u, st.pred x = Int.ofNat u ∧ u < g.node_count ∧ st.vis u = true
  hheap_reach : ∀ e ∈ st.heap, Reaches g source e.node
  hvis_reach : ∀ u, u < g.node_count → st.vis u = true → Reaches g source u
  hchain : ∀ u, u < g.node_count → st.vis u = true →
    ∃ k, k + 1 ≤ st.nodes_visited ∧ ChainTo st.predecessors st.visited source k u

/-- The full invariant between loop iterations. -/
structure LoopInv (g : SparseGraph) (source : Nat) (st : DState) : Prop where
  core : CoreInv g source st
  hrelaxed : ∀ u, u < g.node_count → st.vis u = true →
    ∀ v w, IsEdge g u v w → F64.Fle (st.dist v) ((st.dist u).add w)
  hcount : st.nodes_visited = st.visited.countP (fun b => b)
  hsum : st.edges_relaxed = visitedOutdegSum g st.visited

/-- The invariant during the relaxation of `current`'s edges (tentative
distance `qc`): `current` is already visited but its edges are only partly
relaxed. -/
structure RelaxInv (g : SparseGraph) (source current : Nat) (qc : ℚ) (st : DState) : Prop where
  core : CoreInv g source st
  hrelaxed' : ∀ u, u < g.node_count → st.vis u = true → u ≠ current →
    ∀ v w, IsEdge g u v w → F64.Fle (st.dist v) ((st.dist u).add w)
  hcur : st.dist current = F64.fin qc
  hviscur : st.vis current = true
  hceil : ∀ u, u < g.node_count → st.vis u = true → F64.Fle (st.dist u) (F64.fin qc)
  hkeys : ∀ e ∈ st.heap, F64.Fle (F64.fin qc) e.distance

/-! ## Generic loop reasoning -/

theorem dijkstraStep_done_some {g : SparseGraph} {st st2 : DState}
    (h : dijkstraStep g st = .done (some st2)) : st2 = st ∧ st.heap = [] := by
  unfold dijkstraStep at h
  split at h
  · rename_i hpm
    cases h
    exact ⟨rfl, (popMin_eq_none_iff _).mp hpm⟩
  · split at h
    · simp at h
    · simp at h
    · exfalso
      unfold dijkstraStepGo at h
      split at h
      · simp at h
      · split at h
        · simp at h
        · split at h
          · split at h
            · simp at h
            · simp at h
          · simp at h

theorem dijkstraLoop_invariant (g : SparseGraph) (P : DState → Prop)
    (hstep : ∀ st st2, P st → dijkstraStep g st = .cont st2 → P st2) :
    ∀ st st', P st → dijkstraLoop g st = some st' → P st' ∧ st'.heap = [] := by
  suffices H : ∀ A B st, countUnvisited st.visited = A → st.heap.length = B →
      ∀ st', P st → dijkstraLoop g st = some st' → P st' ∧ st'.heap = [] by
    intro st st' hP hrun
    exact H _ _ st rfl rfl st' hP hrun
  intro A
  induction A using Nat.strong_induction_on with
  | _ A ihA =>
    intro B
    induction B using Nat.strong_induction_on with
    | _ B ihB =>
      intro st hA hB st' hP hrun
      subst hA
      subst hB
      rw [dijkstraLoop_eq] at hrun
      rcases hs : dijkstraStep g st with st2 | r
      · rw [hs] at hrun
        have hP2 := hstep st st2 hP hs
        rcases Prod.lex_iff.mp (dijkstraStep_decreases hs) with h1 | ⟨heq, h2⟩
        · exact ihA _ h1 _ st2 rfl rfl st' hP2 hrun
        · exact ihB _ h2 st2 heq rfl st' hP2 hrun
      · rw [hs] at hrun
        subst hrun
        rcases dijkstraStep_done_some hs with ⟨rfl, hh⟩
        exact ⟨hP, hh⟩

theorem dijkstraLoop_total (g : SparseGraph) (P : DState → Prop)
    (hstep : ∀ st st2, P st → dijkstraStep g st = .cont st2 → P st2)
    (hsafe : ∀ st, P st → dijkstraStep g st ≠ .done none) :
    ∀ st, P st → ∃ st', dijkstraLoop g st = some st' := by
  suffices H : ∀ A B st, countUnvisited st.visited = A → st.heap.length = B →
      P st → ∃ st', dijkstraLoop g st = some st' by
    intro st hP
    exact H _ _ st rfl rfl hP
  intro A
  induction A using Nat.strong_induction_on with
  | _ A ihA =>
    intro B
    induction B using Nat.strong_induction_on with
    | _ B ihB =>
      intro st hA hB hP
      subst hA
      subst hB
      rw [dijkstraLoop_eq]
      rcases hs : dijkstraStep g st with st2 | r
      · have hP2 := hstep st st2 hP hs
        rcases Prod.lex_iff.mp (dijkstraStep_decreases hs) with h1 | ⟨heq, h2⟩
        · exact ihA _ h1 _ st2 rfl rfl hP2
        · exact ihB _ h2 st2 heq rfl hP2
      · rcases r with _ | st2
        · exact absurd hs (hsafe st hP)
        · exact ⟨st2, rfl⟩

/-! ## Totality of the loop on structurally sound graphs -/

/-- Bounds needed so that every index used by the loop stays in range. -/
def SafeInv (g : SparseGraph) (st : DState) : Prop :=
  st.distances.length = g.node_count ∧
  st.predecessors.length = g.node_count ∧
  st.visited.length = g.node_count ∧
  ∀ e ∈ st.heap, e.node < g.node_count

theorem relaxEdges_total {g : SparseGraph} {current : Nat} {cd : F64}
    (hdst : ∀ d ∈ g.destinations, d < g.node_count)
    (hdlen : g.destinations.length = g.edge_count)
    (hwlen : g.weights.length = g.edge_count) :
    ∀ (L : List Nat) (st : DState), (∀ e ∈ L, e < g.edge_count) → SafeInv g st →
      ∃ st', relaxEdges g current cd L st = some st' ∧ SafeInv g st' := by
  intro L
  induction L with
  | nil =>
    intro st _ hS
    exact ⟨st, rfl, hS⟩
  | cons e rest ih =>
    intro st hL hS
    obtain ⟨hd1, hp1, hv1, hh1⟩ := hS
    have he : e < g.edge_count := hL e (List.mem_cons_self _ _)
    have hdse : g.destinations[e]? = some (g.destinations.getD e 0) :=
      getElem?_eq_some_getD _ (by omega)
    have hwse : g.weights[e]? = some (g.weights.getD e F64.nan) :=
      getElem?_eq_some_getD _ (by omega)
    have hnb : g.destinations.getD e 0 < g.node_count :=
      hdst _ (List.getElem?_mem hdse)
    have hdbe : st.distances[g.destinations.getD e 0]? =
        some (st.distances.getD (g.destinations.getD e 0) F64.inf) :=
      getElem?_eq_some_getD _ (by omega)
    have hvbe : st.visited[g.destinations.getD e 0]? =
        some (st.visited.getD (g.destinations.getD e 0) false) :=
      getElem?_eq_some_getD _ (by omega)
    simp only [relaxEdges, hdse, hwse, hdbe]
    split
    · rw [hvbe]
      rcases hvb : st.visited.getD (g.destinations.getD e 0) false with _ | _
      · refine ih _ (fun x hx => hL x (List.mem_cons_of_mem _ hx)) ?_
        refine ⟨by simpa using hd1, by simpa using hp1, by simpa using hv1, ?_⟩
        intro x hx
        rcases List.mem_append.mp hx with hx' | hx'
        · exact hh1 x hx'
        · simp at hx'
          subst hx'
          simpa using hnb
      · refine ih _ (fun x hx => hL x (List.mem_cons_of_mem _ hx)) ?_
        exact ⟨by simpa using hd1, by simpa using hp1, by simpa using hv1, hh1⟩
    · exact ih _ (fun x hx => hL x (List.mem_cons_of_mem _ hx)) ⟨hd1, hp1, hv1, hh1⟩

theorem relaxEdges_safe {g : SparseGraph} {current : Nat} {cd : F64}
    (hdst : ∀ d ∈ g.destinations, d < g.node_count) :
    ∀ (L : List Nat) (st st' : DState),
      relaxEdges g current cd L st = some st' → SafeInv g st → SafeInv g st' := by
  intro L
  induction L with
  | nil =>
    intro st st' h hS
    simp only [relaxEdges] at h
    cases h
    exact hS
  | cons e rest ih =>
    intro st st' h hS
    obtain ⟨hd1, hp1, hv1, hh1⟩ := hS
    simp only [relaxEdges] at h
    split at h
    · rename_i neighbor weight hde hwe
      have hnb : neighbor < g.node_count := hdst _ (List.getElem?_mem hde)
      split at h
      · split at h
        · split at h
          · rename_i vn hve
            rcases vn with _ | _
            · rw [if_neg (by simp)] at h
              refine ih _ _ h ?_
              refine ⟨by simpa using hd1, by simpa using hp1, by simpa using hv1, ?_⟩
              intro x hx
              rcases List.mem_append.mp hx with hx' | hx'
              · exact hh1 x hx'
              · simp at hx'
                subst hx'
                exact hnb
            · rw [if_pos rfl] at h
              refine ih _ _ h ?_
              exact ⟨by simpa using hd1, by simpa using hp1, by simpa using hv1, hh1⟩
          · cases h
        · refine ih _ _ h ?_
          exact ⟨hd1, hp1, hv1, hh1⟩
      · cases h
    · cases h

theorem dijkstraStep_cont_safe {g : SparseGraph} {st st2 : DState}
    (hdst : ∀ d ∈ g.destinations, d < g.node_count)
    (hS : SafeInv g st) (hr : dijkstraStep g st = .cont st2) : SafeInv g st2 := by
  obtain ⟨hd1, hp1, hv1, hh1⟩ := hS
  unfold dijkstraStep at hr
  split at hr
  · cases hr
  · rename_i hn rest hpm
    have hrest : ∀ x ∈ rest, x.node < g.node_count :=
      fun x hx => hh1 x (popMin_rest_subset hpm x hx)
    split at hr
    · cases hr
    · cases hr
      exact ⟨hd1, hp1, hv1, hrest⟩
    · unfold dijkstraStepGo at hr
      split at hr
      · cases hr
      · split at hr
        · cases hr
          exact ⟨by simpa using hd1, by simpa using hp1, by simpa using hv1, hrest⟩
        · split at hr
          · split at hr
            · cases hr
            · rename_i hre
              cases hr
              exact relaxEdges_safe hdst _ _ _ hre
                ⟨by simpa using hd1, by simpa using hp1, by simpa using hv1, hrest⟩
          · cases hr

theorem dijkstraStep_no_panic {g : SparseGraph} (SOK : StructOK g) {st : DState}
    (hS : SafeInv g st) (hr : dijkstraStep g st = .done none) : False := by
  obtain ⟨hoff, hmono, hdst, hdlen, hwlen, hbound⟩ := SOK
  obtain ⟨hd1, hp1, hv1, hh1⟩ := hS
  unfold dijkstraStep at hr
  split at hr
  · cases hr
  · rename_i hn rest hpm
    have hnode : hn.node < g.node_count := hh1 _ (popMin_mem hpm)
    have hrest : ∀ x ∈ rest, x.node < g.node_count :=
      fun x hx => hh1 x (popMin_rest_subset hpm x hx)
    split at hr
    · rename_i hve
      rw [getElem?_eq_some_getD false (by omega)] at hve
      cases hve
    · cases hr
    · unfold dijkstraStepGo at hr
      split at hr
      · rename_i hde
        rw [getElem?_eq_some_getD F64.inf (by simpa using (by omega : hn.node < st.distances.length))] at hde
        cases hde
      · split at hr
        · cases hr
        · split at hr
          · split at hr
            · rename_i st1x hre
              have hLbound : ∀ x ∈ List.range' (g.outgoing_edges.getD hn.node 0)
                  (g.outgoing_edges.getD (hn.node + 1) 0 - g.outgoing_edges.getD hn.node 0),
                  x < g.edge_count := by
                intro x hx
                rcases List.mem_range'.mp hx with ⟨hx1, hx2⟩
                have hchain := offsets_chain hmono (Nat.succ_le_of_lt hnode) le_rfl
                simp only [Nat.succ_eq_add_one] at hchain
                omega
              rcases relaxEdges_total hdst hdlen hwlen _
                  { st with visited := st.visited.set hn.node true, nodes_visited := st.nodes_visited + 1, heap := rest }
                  hLbound
                  ⟨by simpa using hd1, by simpa using hp1, by simpa using hv1, hrest⟩
                with ⟨st', hst', hS'⟩
              rename_i hes hee
              rw [getElem?_eq_some_getD 0 (by omega)] at hes
              rw [getElem?_eq_some_getD 0 (by omega)] at hee
              cases hes
              cases hee
              rw [hst'] at hre
              cases hre
            · cases hr
          · rename_i hx
            exact hx (g.outgoing_edges.getD hn.node 0) (g.outgoing_edges.getD (hn.node + 1) 0)
              (getElem?_eq_some_getD 0 (by omega)) (getElem?_eq_some_getD 0 (by omega))

theorem dijkstraInit_safe {g : SparseGraph} {source : Nat} (hsrc : source < g.node_count) :
    SafeInv g (dijkstraInit g source) := by
  refine ⟨by simp [dijkstraInit], by simp [dijkstraInit], by simp [dijkstraInit], ?_⟩
  intro e he
  simp only [dijkstraInit, List.mem_singleton] at he
  subst he
  exact hsrc

/-- On a structurally sound graph `solve_dijkstra_optimized` cannot panic. -/
theorem dijkstraMain_total {g : SparseGraph} {source : Nat} (SOK : StructOK g)
    (hsrc : source < g.node_count) :
    ∃ r : SSSpResult, dijkstraMain g source = .ok r ∧
      r.algorithm_used = "dijkstra-optimized" := by
  rcases dijkstraLoop_total g (SafeInv g)
      (fun st st2 hP hs => dijkstraStep_cont_safe SOK.2.2.1 hP hs)
      (fun st hP hcontra => dijkstraStep_no_panic SOK hP hcontra)
      (dijkstraInit g source) (dijkstraInit_safe hsrc) with ⟨st', hst'⟩
  unfold dijkstraMain
  rw [if_pos hsrc, hst']
  exact ⟨_, rfl, rfl⟩

/-! ## Preservation of the invariant -/

theorem F64.add_fin (a b : ℚ) : (F64.fin a).add (F64.fin b) = F64.fin (a + b) := rfl

theorem F64.fle_fin_mono {a b : ℚ} (h : a ≤ b) : F64.Fle (F64.fin a) (F64.fin b) :=
  F64.fle_fin_iff.mpr h

theorem RelaxedAt.relaxed_mono {g : SparseGraph} {qc : ℚ} {st st' : DState}
    (hm : ∀ v, F64.Fle (st'.dist v) (st.dist v)) {e : Nat}
    (h : RelaxedAt g qc st e) : RelaxedAt g qc st' e :=
  fun v w hv hw => (hm v).trans (h v w hv hw)

/-- Re-establishing `RelaxInv` across one improving relaxation
`distances[nb] ← qc + qw`, `predecessors[nb] ← current`, plus the heap push
of the unvisited `nb` and the `edges_relaxed` bump. -/
theorem relax_update_inv {g : SparseGraph} {source current : Nat} {qc : ℚ}
    (G : GraphOK g) (hsrcn : source < g.node_count) (hcurn : current < g.node_count)
    (hqc : 0 ≤ qc) {st : DState} (R : RelaxInv g source current qc st)
    {nb : Nat} {qw : ℚ} (hnb : nb < g.node_count) (hqw : 0 ≤ qw)
    {eIdx : Nat} (heL : g.outgoing_edges.getD current 0 ≤ eIdx)
    (heU : eIdx < g.outgoing_edges.getD (current + 1) 0)
    (hde : g.destinations[eIdx]? = some nb)
    (hwe : g.weights[eIdx]? = some (F64.fin qw))
    (hvnb : st.vis nb = false)
    (hlt : F64.lt (F64.fin (qc + qw)) (st.dist nb) = true) :
    RelaxInv g source current qc
      { st with
        distances := st.distances.set nb (F64.fin (qc + qw)),
        predecessors := st.predecessors.set nb (Int.ofNat current),
        heap := st.heap ++ [⟨nb, F64.fin (qc + qw)⟩],
        edges_relaxed := st.edges_relaxed + 1 } := by
  obtain ⟨C, hrelaxed', hcur, hviscur, hceil, hkeys⟩ := R
  have hnbd : nb < st.distances.length := by rw [C.hdlen]; exact hnb
  have hnbp : nb < st.predecessors.length := by rw [C.hplen]; exact hnb
  have hdist_self : (st.distances.set nb (F64.fin (qc + qw))).getD nb F64.inf =
      F64.fin (qc + qw) := getD_set_self _ _ hnbd
  have hdist_ne : ∀ v, v ≠ nb →
      (st.distances.set nb (F64.fin (qc + qw))).getD v F64.inf = st.dist v :=
    fun v hv => getD_set_ne _ _ (fun h => hv h.symm)
  have hpred_self : (st.predecessors.set nb (Int.ofNat current)).getD nb (-1) =
      Int.ofNat current := getD_set_self _ _ hnbp
  have hpred_ne : ∀ v, v ≠ nb →
      (st.predecessors.set nb (Int.ofNat current)).getD v (-1) = st.pred v :=
    fun v hv => getD_set_ne _ _ (fun h => hv h.symm)
  have hne_of_vis : ∀ u, st.vis u = true → u ≠ nb := by
    intro u hu h
    rw [h, hvnb] at hu
    cases hu
  have hcurnb : current ≠ nb := hne_of_vis current hviscur
  have hdist_mono : ∀ v,
      F64.Fle ((st.distances.set nb (F64.fin (qc + qw))).getD v F64.inf) (st.dist v) := by
    intro v
    by_cases hv : v = nb
    · subst hv
      rw [hdist_self]
      exact Or.inl hlt
    · rw [hdist_ne v hv]
      exact F64.Fle.refl _
  have hedge : IsEdge g current nb (F64.fin qw) := ⟨hcurn, eIdx, heL, heU, hde, hwe⟩
  have hreach_nb : Reaches g source nb :=
    Relation.ReflTransGen.tail (C.hvis_reach current hcurn hviscur) ⟨_, hedge⟩
  have hsrc_ne : source ≠ nb := by
    intro h
    subst h
    rw [C.hsource0] at hlt
    simp only [F64.lt, decide_eq_true_eq] at hlt
    linarith
  refine ⟨⟨?_, ?_, ?_, ?_, ?_, ?_, ?_, ?_, ?_, ?_, ?_, ?_, ?_, ?_, ?_, ?_⟩,
    ?_, ?_, ?_, ?_, ?_⟩
  · simpa using C.hdlen
  · simpa using C.hplen
  · simpa using C.hvlen
  · intro e he
    rcases List.mem_append.mp he with he' | he'
    · exact C.hheapnode e he'
    · simp at he'
      subst he'
      exact hnb
  · intro e he
    rcases List.mem_append.mp he with he' | he'
    · exact C.hheapkey e he'
    · simp at he'
      subst he'
      exact ⟨qc + qw, rfl, by linarith⟩
  · intro v hv
    by_cases hvnb' : v = nb
    · subst hvnb'
      exact Or.inr ⟨qc + qw, hdist_self, by linarith⟩
    · show DistShape ((st.distances.set nb (F64.fin (qc + qw))).getD v F64.inf)
      rw [hdist_ne v hvnb']
      exact C.hshape v hv
  · intro e he
    rcases List.mem_append.mp he with he' | he'
    · show F64.Fle ((st.distances.set nb (F64.fin (qc + qw))).getD e.node F64.inf) e.distance
      exact (hdist_mono e.node).trans (C.hkey_ge e he')
    · simp at he'
      subst he'
      show F64.Fle ((st.distances.set nb (F64.fin (qc + qw))).getD nb F64.inf) (F64.fin (qc + qw))
      rw [hdist_self]
      exact F64.Fle.refl _
  · intro u hu hvu e he
    have hun : u ≠ nb := hne_of_vis u hvu
    show F64.Fle ((st.distances.set nb (F64.fin (qc + qw))).getD u F64.inf) e.distance
    rw [hdist_ne u hun]
    rcases List.mem_append.mp he with he' | he'
    · exact C.hvis_min u hu hvu e he'
    · simp at he'
      subst he'
      exact (hceil u hu hvu).trans (F64.fle_fin_mono (by linarith))
  · intro x hx hvx hdx
    by_cases hxnb : x = nb
    · subst hxnb
      refine ⟨⟨x, F64.fin (qc + qw)⟩, List.mem_append.mpr (Or.inr (by simp)), rfl, ?_⟩
      show F64.Fle (F64.fin (qc + qw)) ((st.distances.set x (F64.fin (qc + qw))).getD x F64.inf)
      rw [hdist_self]
      exact F64.Fle.refl _
    · have hdx' : st.dist x ≠ F64.inf := by
        intro h
        apply hdx
        show (st.distances.set nb (F64.fin (qc + qw))).getD x F64.inf = F64.inf
        rw [hdist_ne x hxnb]
        exact h
      rcases C.hpending x hx hvx hdx' with ⟨e, he, henode, hfle⟩
      refine ⟨e, List.mem_append.mpr (Or.inl he), henode, ?_⟩
      show F64.Fle e.distance ((st.distances.set nb (F64.fin (qc + qw))).getD x F64.inf)
      rw [hdist_ne x hxnb]
      exact hfle
  · show (st.distances.set nb (F64.fin (qc + qw))).getD source F64.inf = F64.fin 0
    rw [hdist_ne source hsrc_ne]
    exact C.hsource0
  · intro u hu hvu
    have hun : u ≠ nb := hne_of_vis u hvu
    show (st.distances.set nb (F64.fin (qc + qw))).getD u F64.inf ≠ F64.inf
    rw [hdist_ne u hun]
    exact C.hvis_fin u hu hvu
  · intro e he
    by_cases henb : e.node = nb
    · right
      show (st.predecessors.set nb (Int.ofNat current)).getD e.node (-1) ≠ -1
      rw [henb, hpred_self]
      simp
    · rcases List.mem_append.mp he with he' | he'
      · rcases C.hheap_pred e he' with h | h
        · exact Or.inl h
        · right
          show (st.predecessors.set nb (Int.ofNat current)).getD e.node (-1) ≠ -1
          rw [hpred_ne e.node henb]
          exact h
      · simp at he'
        exact absurd (by rw [he']) henb
  · intro x hx hpx
    by_cases hxnb : x = nb
    · subst hxnb
      refine ⟨current, ?_, hcurn, hviscur⟩
      show (st.predecessors.set x (Int.ofNat current)).getD x (-1) = Int.ofNat current
      exact hpred_self
    · have hpx' : st.pred x ≠ -1 := by
        intro h
        apply hpx
        show (st.predecessors.set nb (Int.ofNat current)).getD x (-1) = -1
        rw [hpred_ne x hxnb]
        exact h
      rcases C.hpred_vis x hx hpx' with ⟨u, hu1, hu2, hu3⟩
      refine ⟨u, ?_, hu2, hu3⟩
      show (st.predecessors.set nb (Int.ofNat current)).getD x (-1) = Int.ofNat u
      rw [hpred_ne x hxnb]
      exact hu1
  · intro e he
    rcases List.mem_append.mp he with he' | he'
    · exact C.hheap_reach e he'
    · simp at he'
      subst he'
      exact hreach_nb
  · exact C.hvis_reach
  · intro u hu hvu
    rcases C.hchain u hu hvu with ⟨k, hk, hchain⟩
    refine ⟨k, hk, ?_⟩
    refine ChainTo.chain_mono ?_ (fun x h => h) hvu hchain
    intro x hvx
    exact hpred_ne x (hne_of_vis x hvx)
  · intro u hu hvu hucur v w hvw
    have hun : u ≠ nb := hne_of_vis u hvu
    have h1 := hrelaxed' u hu hvu hucur v w hvw
    show F64.Fle ((st.distances.set nb (F64.fin (qc + qw))).getD v F64.inf)
      (((st.distances.set nb (F64.fin (qc + qw))).getD u F64.inf).add w)
    rw [hdist_ne u hun]
    exact (hdist_mono v).trans h1
  · show (st.distances.set nb (F64.fin (qc + qw))).getD current F64.inf = F64.fin qc
    rw [hdist_ne current hcurnb]
    exact hcur
  · exact hviscur
  · intro u hu hvu
    have hun : u ≠ nb := hne_of_vis u hvu
    show F64.Fle ((st.distances.set nb (F64.fin (qc + qw))).getD u F64.inf) (F64.fin qc)
    rw [hdist_ne u hun]
    exact hceil u hu hvu
  · intro e he
    rcases List.mem_append.mp he with he' | he'
    · exact hkeys e he'
    · simp at he'
      subst he'
      exact F64.fle_fin_mono (by linarith)

theorem RelaxInv.er_bump {g : SparseGraph} {source current : Nat} {qc : ℚ} {st : DState}
    (R : RelaxInv g source current qc st) :
    RelaxInv g source current qc { st with edges_relaxed := st.edges_relaxed + 1 } := by
  obtain ⟨C, h1, h2, h3, h4, h5⟩ := R
  exact ⟨⟨C.hdlen, C.hplen, C.hvlen, C.hheapnode, C.hheapkey, C.hshape, C.hkey_ge,
    C.hvis_min, C.hpending, C.hsource0, C.hvis_fin, C.hheap_pred, C.hpred_vis,
    C.hheap_reach, C.hvis_reach, C.hchain⟩, h1, h2, h3, h4, h5⟩

theorem relaxEdges_spec {g : SparseGraph} {source current : Nat} {qc : ℚ}
    (G : GraphOK g) (hsrcn : source < g.node_count) (hcurn : current < g.node_count)
    (hqc : 0 ≤ qc) :
    ∀ (L : List Nat) (st : DState),
      (∀ e ∈ L, g.outgoing_edges.getD current 0 ≤ e ∧
        e < g.outgoing_edges.getD (current + 1) 0) →
      RelaxInv g source current qc st →
      (∀ e, g.outgoing_edges.getD current 0 ≤ e →
        e < g.outgoing_edges.getD (current + 1) 0 → e ∉ L → RelaxedAt g qc st e) →
      ∀ st', relaxEdges g current (F64.fin qc) L st = some st' →
        RelaxInv g source current qc st' ∧
        (∀ e, g.outgoing_edges.getD current 0 ≤ e →
          e < g.outgoing_edges.getD (current + 1) 0 → RelaxedAt g qc st' e) ∧
        st'.visited = st.visited ∧
        st'.nodes_visited = st.nodes_visited ∧
        st'.edges_relaxed = st.edges_relaxed + L.length := by
  intro L
  induction L with
  | nil =>
    intro st hL R hcov st' h
    simp only [relaxEdges] at h
    cases h
    exact ⟨R, fun e h1 h2 => hcov e h1 h2 (by simp), rfl, rfl, rfl⟩
  | cons eIdx rest ih =>
    intro st hL R hcov st' h
    simp only [relaxEdges] at h
    split at h
    · rename_i neighbor weight hde hwe
      have hnb : neighbor < g.node_count := G.hdst _ (List.getElem?_mem hde)
      rcases G.hwts _ (List.getElem?_mem hwe) with ⟨qw, rfl, hqw⟩
      have heIdx := hL eIdx (List.mem_cons_self _ _)
      split at h
      · rename_i dnb hdnb
        have hdnb' : st.dist neighbor = dnb := getD_of_getElem? _ hdnb
        split at h
        · rename_i hif
          rw [F64.add_fin] at hif
          split at h
          · rename_i vn hve
            have hve' : st.vis neighbor = vn := getD_of_getElem? _ hve
            rcases vn with _ | _
            · rw [if_neg (by simp)] at h
              have hvnb : st.vis neighbor = false := hve'
              rw [← hdnb'] at hif
              have R2 := relax_update_inv G hsrcn hcurn hqc R hnb hqw
                heIdx.1 heIdx.2 hde hwe hvnb hif
              have hdist_mono : ∀ v, F64.Fle
                  (DState.dist { st with
                    distances := st.distances.set neighbor (F64.fin (qc + qw)),
                    predecessors := st.predecessors.set neighbor (Int.ofNat current),
                    heap := st.heap ++ [⟨neighbor, F64.fin (qc + qw)⟩],
                    edges_relaxed := st.edges_relaxed + 1 } v)
                  (st.dist v) := by
                intro v
                show F64.Fle ((st.distances.set neighbor (F64.fin (qc + qw))).getD v F64.inf)
                  (st.dist v)
                by_cases hv : v = neighbor
                · subst hv
                  rw [getD_set_self _ _ (by rw [R.core.hdlen]; exact hnb)]
                  exact Or.inl hif
                · rw [getD_set_ne _ _ (fun hx => hv hx.symm)]
                  exact F64.Fle.refl _
              have hcov2 : ∀ e', g.outgoing_edges.getD current 0 ≤ e' →
                  e' < g.outgoing_edges.getD (current + 1) 0 → e' ∉ rest →
                  RelaxedAt g qc { st with
                    distances := st.distances.set neighbor (F64.fin (qc + qw)),
                    predecessors := st.predecessors.set neighbor (Int.ofNat current),
                    heap := st.heap ++ [⟨neighbor, F64.fin (qc + qw)⟩],
                    edges_relaxed := st.edges_relaxed + 1 } e' := by
                intro e' h1 h2 h3
                by_cases he' : e' = eIdx
                · subst he'
                  intro v w hv hw
                  rw [hde] at hv
                  rw [hwe] at hw
                  cases hv
                  cases hw
                  show F64.Fle ((st.distances.set neighbor (F64.fin (qc + qw))).getD
                    neighbor F64.inf) ((F64.fin qc).add (F64.fin qw))
                  rw [getD_set_self _ _ (by rw [R.core.hdlen]; exact hnb), F64.add_fin]
                  exact F64.Fle.refl _
                · have : e' ∉ eIdx :: rest := by
                    intro hx
                    rcases List.mem_cons.mp hx with hx' | hx'
                    · exact he' hx'
                    · exact h3 hx'
                  exact RelaxedAt.relaxed_mono hdist_mono (hcov e' h1 h2 this)
              rcases ih _ (fun x hx => hL x (List.mem_cons_of_mem _ hx)) R2 hcov2 st' h
                with ⟨Rout, hcovout, hvout, hnout, heout⟩
              refine ⟨Rout, hcovout, hvout, hnout, ?_⟩
              dsimp only at heout
              simp only [List.length_cons]
              omega
            · exfalso
              have hceil' := R.hceil neighbor hnb hve'
              rw [hdnb'] at hceil'
              have hlt2 := F64.Fle.lt_of_lt_of_le hif hceil'
              simp only [F64.lt, decide_eq_true_eq] at hlt2
              linarith
          · cases h
        · rename_i hif
          rw [F64.add_fin] at hif
          have hcov2 : ∀ e', g.outgoing_edges.getD current 0 ≤ e' →
              e' < g.outgoing_edges.getD (current + 1) 0 → e' ∉ rest →
              RelaxedAt g qc { st with edges_relaxed := st.edges_relaxed + 1 } e' := by
            intro e' h1 h2 h3
            by_cases he' : e' = eIdx
            · subst he'
              intro v w hv hw
              rw [hde] at hv
              rw [hwe] at hw
              cases hv
              cases hw
              have hshape := (R.core.hshape neighbor hnb).not_nan
              rw [hdnb'] at hshape
              have h5 := F64.le_total_fin_inf (Or.inr ⟨qc + qw, rfl⟩) hshape
                (Bool.eq_false_iff.mpr hif)
              rw [← hdnb'] at h5
              show F64.Fle (st.dist neighbor) ((F64.fin qc).add (F64.fin qw))
              rw [F64.add_fin]
              exact h5
            · have : e' ∉ eIdx :: rest := by
                intro hx
                rcases List.mem_cons.mp hx with hx' | hx'
                · exact he' hx'
                · exact h3 hx'
              exact hcov e' h1 h2 this
          rcases ih _ (fun x hx => hL x (List.mem_cons_of_mem _ hx)) R.er_bump hcov2 st' h
            with ⟨Rout, hcovout, hvout, hnout, heout⟩
          refine ⟨Rout, hcovout, hvout, hnout, ?_⟩
          dsimp only at heout
          simp only [List.length_cons]
          omega
      · cases h
    · cases h

theorem F64.Fle.antisymm {a b : F64} (h1 : F64.Fle a b) (h2 : F64.Fle b a) : a = b := by
  rcases h1 with h1 | rfl
  · rcases h2 with h2 | rfl
    · have := F64.lt_trans h1 h2
      rw [F64.lt_irrefl] at this
      cases this
    · rfl
  · rfl

theorem visitedOutdegSum_set_true {g : SparseGraph} {l : List Bool} {i : Nat}
    (hi : i < g.node_count) (hlen : i < l.length) (hv : l.getD i false = false) :
    visitedOutdegSum g (l.set i true) = visitedOutdegSum g l + outdeg g i := by
  have h1 := Finset.sum_erase_add (Finset.range g.node_count)
    (fun u => if (l.set i true).getD u false = true then outdeg g u else 0)
    (Finset.mem_range.mpr hi)
  have h2 := Finset.sum_erase_add (Finset.range g.node_count)
    (fun u => if l.getD u false = true then outdeg g u else 0)
    (Finset.mem_range.mpr hi)
  have he : ∑ x in (Finset.range g.node_count).erase i,
      (if (l.set i true).getD x false = true then outdeg g x else 0) =
      ∑ x in (Finset.range g.node_count).erase i,
      (if l.getD x false = true then outdeg g x else 0) :=
    Finset.sum_congr rfl
      (fun u hu => by rw [getD_set_ne _ _ (Ne.symm (Finset.mem_erase.mp hu).1)])
  unfold visitedOutdegSum
  rw [← h1, ← h2, he]
  simp only [getD_set_self _ _ hlen, hv]
  simp

/-- One `cont` step of the loop preserves the full invariant. -/
theorem dijkstraStep_inv {g : SparseGraph} {source : Nat} (G : GraphOK g)
    (hsrc : source < g.node_count) {st st2 : DState}
    (I : LoopInv g source st) (hs : dijkstraStep g st = .cont st2) :
    LoopInv g source st2 := by
  obtain ⟨C, hrelax, hcount, hsum⟩ := I
  unfold dijkstraStep at hs
  split at hs
  · cases hs
  · rename_i hn rest hpm
    have hmemhn := popMin_mem hpm
    have hnode : hn.node < g.node_count := C.hheapnode _ hmemhn
    have hkeysfin : ∀ x ∈ st.heap, ∃ q, x.distance = F64.fin q :=
      fun x hx => ⟨(C.hheapkey x hx).choose, (C.hheapkey x hx).choose_spec.1⟩
    have hmin := popMin_min hkeysfin hpm
    have hrestsub := popMin_rest_subset hpm
    split at hs
    · cases hs
    · rename_i hve
      cases hs
      have hvtrue : st.vis hn.node = true := getD_of_getElem? _ hve
      refine ⟨⟨C.hdlen, C.hplen, C.hvlen,
        fun e he => C.hheapnode e (hrestsub e he),
        fun e he => C.hheapkey e (hrestsub e he),
        C.hshape,
        fun e he => C.hkey_ge e (hrestsub e he),
        fun u hu hvu e he => C.hvis_min u hu hvu e (hrestsub e he),
        ?_, C.hsource0, C.hvis_fin,
        fun e he => C.hheap_pred e (hrestsub e he),
        C.hpred_vis,
        fun e he => C.hheap_reach e (hrestsub e he),
        C.hvis_reach, C.hchain⟩, hrelax, hcount, hsum⟩
      intro x hx hvx hdx
      have hvx' : st.vis x = false := hvx
      have hdx' : st.dist x ≠ F64.inf := hdx
      rcases C.hpending x hx hvx' hdx' with ⟨e, he, henode, hfle⟩
      have hexn : e ≠ hn := by
        intro h
        rw [h] at henode
        rw [henode] at hvtrue
        rw [hvtrue] at hvx'
        cases hvx'
      exact ⟨e, popMin_mem_rest_of_ne hpm e he hexn, henode, hfle⟩
    · rename_i hve
      have hvfalse : st.vis hn.node = false := getD_of_getElem? _ hve
      have hvfalse' : st.visited.getD hn.node false = false := hvfalse
      rcases C.hheapkey _ hmemhn with ⟨qk, hk, hqk⟩
      have hvlen' : hn.node < st.visited.length := by rw [C.hvlen]; exact hnode
      have hvismono : ∀ u, st.vis u = true →
          (st.visited.set hn.node true).getD u false = true := by
        intro u hu
        by_cases h : u = hn.node
        · subst h
          exact getD_set_self _ _ hvlen'
        · rw [getD_set_ne _ _ (fun hx => h hx.symm)]
          exact hu
      have hvisself : (st.visited.set hn.node true).getD hn.node false = true :=
        getD_set_self _ _ hvlen'
      have hvisne : ∀ u, u ≠ hn.node →
          (st.visited.set hn.node true).getD u false = st.vis u :=
        fun u hu => getD_set_ne _ _ (fun hx => hu hx.symm)
      have hminrest : ∀ e ∈ rest, F64.Fle (F64.fin qk) e.distance := by
        intro e he
        rcases hkeysfin e (hrestsub e he) with ⟨qe, hqe⟩
        have h0 := hmin e (hrestsub e he)
        rw [hqe, hk] at h0
        rw [hqe]
        exact F64.le_total_fin_inf (Or.inr ⟨_, rfl⟩) (Or.inr ⟨_, rfl⟩) h0
      unfold dijkstraStepGo at hs
      split at hs
      · cases hs
      · rename_i dc hdc
        have hdc' : st.dist hn.node = dc := getD_of_getElem? _ hdc
        have h1 : F64.Fle dc hn.distance := by
          rw [← hdc']
          exact C.hkey_ge _ hmemhn
        split at hs
        · rename_i hstale
          exfalso
          have hdcne : dc ≠ F64.inf := by
            intro h
            rw [h] at hstale
            simp [F64.lt] at hstale
          rcases C.hpending hn.node hnode hvfalse (by rw [hdc']; exact hdcne)
            with ⟨e, he, henode, hfle⟩
          have hlt2 : F64.lt e.distance hn.distance = true :=
            F64.Fle.lt_of_le_of_lt (by rw [hdc'] at hfle; exact hfle) hstale
          rw [hmin e he] at hlt2
          cases hlt2
        · rename_i hnstale
          have hdcshape : dc = F64.inf ∨ ∃ q, dc = F64.fin q := by
            rw [← hdc']
            exact (C.hshape hn.node hnode).not_nan
          have hkle : F64.Fle hn.distance dc :=
            F64.le_total_fin_inf hdcshape (Or.inr ⟨qk, hk⟩) (Bool.eq_false_iff.mpr hnstale)
          have hdceq : dc = F64.fin qk := by
            rw [← hk]
            exact F64.Fle.antisymm h1 hkle
          have hdqk : st.dist hn.node = F64.fin qk := by rw [hdc', hdceq]
          split at hs
          · rename_i es ee hes hee
            obtain rfl : es = g.outgoing_edges.getD hn.node 0 := (getD_of_getElem? 0 hes).symm
            obtain rfl : ee = g.outgoing_edges.getD (hn.node + 1) 0 :=
              (getD_of_getElem? 0 hee).symm
            split at hs
            · cases hs
            · rename_i st3 hre
              cases hs
              rw [hk] at hre
              have hR1 : RelaxInv g source hn.node qk
                  { st with
                    visited := st.visited.set hn.node true,
                    nodes_visited := st.nodes_visited + 1,
                    heap := rest } := by
                refine ⟨⟨C.hdlen, C.hplen, by simpa using C.hvlen,
                  fun e he => C.hheapnode e (hrestsub e he),
                  fun e he => C.hheapkey e (hrestsub e he),
                  C.hshape,
                  fun e he => C.hkey_ge e (hrestsub e he),
                  ?_, ?_, C.hsource0, ?_,
                  fun e he => C.hheap_pred e (hrestsub e he),
                  ?_,
                  fun e he => C.hheap_reach e (hrestsub e he),
                  ?_, ?_⟩, ?_, ?_, ?_, ?_, ?_⟩
                · intro u hu hvu e he
                  have hvu' : (st.visited.set hn.node true).getD u false = true := hvu
                  show F64.Fle (st.dist u) e.distance
                  by_cases huh : u = hn.node
                  · subst huh
                    rw [hdqk]
                    exact hminrest e he
                  · rw [hvisne u huh] at hvu'
                    exact C.hvis_min u hu hvu' e (hrestsub e he)
                · intro x hx hvx hdx
                  have hvx' : (st.visited.set hn.node true).getD x false = false := hvx
                  have hdx' : st.dist x ≠ F64.inf := hdx
                  have hxn : x ≠ hn.node := by
                    intro h
                    rw [h, hvisself] at hvx'
                    cases hvx'
                  rw [hvisne x hxn] at hvx'
                  rcases C.hpending x hx hvx' hdx' with ⟨e, he, henode, hfle⟩
                  have hexn : e ≠ hn := by
                    intro h
                    rw [h] at henode
                    exact hxn henode.symm
                  exact ⟨e, popMin_mem_rest_of_ne hpm e he hexn, henode, hfle⟩
                · intro u hu hvu
                  have hvu' : (st.visited.set hn.node true).getD u false = true := hvu
                  show st.dist u ≠ F64.inf
                  by_cases huh : u = hn.node
                  · subst huh
                    rw [hdqk]
                    simp
                  · rw [hvisne u huh] at hvu'
                    exact C.hvis_fin u hu hvu'
                · intro x hx hpx
                  have hpx' : st.pred x ≠ -1 := hpx
                  rcases C.hpred_vis x hx hpx' with ⟨u, hu1, hu2, hu3⟩
                  exact ⟨u, hu1, hu2, hvismono u hu3⟩
                · intro u hu hvu
                  have hvu' : (st.visited.set hn.node true).getD u false = true := hvu
                  by_cases huh : u = hn.node
                  · subst huh
                    exact C.hheap_reach _ hmemhn
                  · rw [hvisne u huh] at hvu'
                    exact C.hvis_reach u hu hvu'
                · intro u hu hvu
                  have hvu' : (st.visited.set hn.node true).getD u false = true := hvu
                  by_cases huh : u = hn.node
                  · subst huh
                    by_cases hsrceq : hn.node = source
                    · refine ⟨0, ?_, ?_⟩
                      · show 0 + 1 ≤ st.nodes_visited + 1
                        omega
                      · exact hsrceq
                    · rcases C.hheap_pred _ hmemhn with h | h
                      · exact absurd h hsrceq
                      · rcases C.hpred_vis hn.node hu h with ⟨u', hpu, hu'n, hu'vis⟩
                        rcases C.hchain u' hu'n hu'vis with ⟨k', hk', hchain'⟩
                        refine ⟨k' + 1, ?_, ?_⟩
                        · show k' + 1 + 1 ≤ st.nodes_visited + 1
                          omega
                        · exact ⟨u', hpu, hvismono u' hu'vis,
                            ChainTo.chain_mono (fun x _ => rfl) hvismono hu'vis hchain'⟩
                  · rw [hvisne u huh] at hvu'
                    rcases C.hchain u hu hvu' with ⟨k', hk', hchain'⟩
                    refine ⟨k', ?_, ?_⟩
                    · show k' + 1 ≤ st.nodes_visited + 1
                      omega
                    · exact ChainTo.chain_mono (fun x _ => rfl) hvismono hvu' hchain'
                · intro u hu hvu huc v w hvw
                  have hvu' : (st.visited.set hn.node true).getD u false = true := hvu
                  rw [hvisne u huc] at hvu'
                  exact hrelax u hu hvu' v w hvw
                · exact hdqk
                · exact hvisself
                · intro u hu hvu
                  have hvu' : (st.visited.set hn.node true).getD u false = true := hvu
                  show F64.Fle (st.dist u) (F64.fin qk)
                  by_cases huh : u = hn.node
                  · subst huh
                    rw [hdqk]
                    exact F64.Fle.refl _
                  · rw [hvisne u huh] at hvu'
                    have h2 := C.hvis_min u hu hvu' _ hmemhn
                    rw [hk] at h2
                    exact h2
                · exact hminrest
              have hL : ∀ e ∈ List.range' (g.outgoing_edges.getD hn.node 0)
                  (g.outgoing_edges.getD (hn.node + 1) 0 - g.outgoing_edges.getD hn.node 0),
                  g.outgoing_edges.getD hn.node 0 ≤ e ∧
                    e < g.outgoing_edges.getD (hn.node + 1) 0 := by
                intro e he
                rcases List.mem_range'.mp he with ⟨h1', h2'⟩
                have := G.hmono hn.node hnode
                omega
              have hcov0 : ∀ e, g.outgoing_edges.getD hn.node 0 ≤ e →
                  e < g.outgoing_edges.getD (hn.node + 1) 0 →
                  e ∉ List.range' (g.outgoing_edges.getD hn.node 0)
                    (g.outgoing_edges.getD (hn.node + 1) 0 -
                      g.outgoing_edges.getD hn.node 0) →
                  RelaxedAt g qk { st with
                    visited := st.visited.set hn.node true,
                    nodes_visited := st.nodes_visited + 1,
                    heap := rest } e := by
                intro e h1' h2' h3'
                exfalso
                exact h3' (List.mem_range'.mpr
                  ⟨e - g.outgoing_edges.getD hn.node 0, by omega, by omega⟩)
              rcases relaxEdges_spec G hsrc hnode hqk _ _ hL hR1 hcov0 st2 hre
                with ⟨Rout, hcovout, hvout, hnout, heout⟩
              obtain ⟨Cout, hrelaxout', hcurout, hviscurout, hceilout, hkeysout⟩ := Rout
              refine ⟨Cout, ?_, ?_, ?_⟩
              · intro u hu hvu v w hvw
                by_cases huh : u = hn.node
                · subst huh
                  rcases hvw with ⟨_, e, he1, he2, hde, hwe⟩
                  have h3 := hcovout e he1 he2 v w hde hwe
                  show F64.Fle (st2.dist v) ((st2.dist hn.node).add w)
                  rw [hcurout]
                  exact h3
                · exact hrelaxout' u hu hvu huh v w hvw
              · rw [hnout, hvout]
                show st.nodes_visited + 1 = (st.visited.set hn.node true).countP (fun b => b)
                have hvsome : st.visited[hn.node]? = some false := by
                  rw [getElem?_eq_some_getD false hvlen', hvfalse']
                rw [countP_true_set hvsome]
                omega
              · rw [heout, hvout]
                show st.edges_relaxed +
                    (List.range' (g.outgoing_edges.getD hn.node 0)
                      (g.outgoing_edges.getD (hn.node + 1) 0 -
                        g.outgoing_edges.getD hn.node 0)).length =
                  visitedOutdegSum g (st.visited.set hn.node true)
                rw [visitedOutdegSum_set_true hnode hvlen' hvfalse', List.length_range',
                  hsum]
                unfold outdeg
                omega
          · cases hs

/-! ## Initial state and end-of-run facts -/

theorem replicate_getD {α : Type} (n i : Nat) (a d : α) :
    (List.replicate n a).getD i d = if i < n then a else d := by
  rw [List.getD_eq_getElem?_getD, List.getElem?_replicate]
  split <;> rfl

theorem dijkstraInit_inv {g : SparseGraph} {source : Nat} (G : GraphOK g)
    (hsrc : source < g.node_count) : LoopInv g source (dijkstraInit g source) := by
  have hdlen : ((List.replicate g.node_count F64.inf).set source (F64.fin 0)).length =
      g.node_count := by simp
  have hsrclen : source < (List.replicate g.node_count F64.inf).length := by
    simpa using hsrc
  have hdist0 : ((List.replicate g.node_count F64.inf).set source (F64.fin 0)).getD
      source F64.inf = F64.fin 0 := getD_set_self _ _ hsrclen
  have hdistne : ∀ v, v ≠ source →
      ((List.replicate g.node_count F64.inf).set source (F64.fin 0)).getD v F64.inf =
      F64.inf := by
    intro v hv
    rw [getD_set_ne _ _ (fun h => hv h.symm), replicate_getD]
    split <;> rfl
  have hvis : ∀ u, (List.replicate g.node_count false).getD u false = false := by
    intro u
    rw [replicate_getD]
    split <;> rfl
  have hpred : ∀ u, (List.replicate g.node_count (-1 : Int)).getD u (-1) = -1 := by
    intro u
    rw [replicate_getD]
    split <;> rfl
  refine ⟨⟨hdlen, by simp [dijkstraInit], by simp [dijkstraInit],
    ?_, ?_, ?_, ?_, ?_, ?_, hdist0, ?_, ?_, ?_, ?_, ?_, ?_⟩, ?_, ?_, ?_⟩
  · intro e he
    simp only [dijkstraInit, List.mem_singleton] at he
    subst he
    exact hsrc
  · intro e he
    simp only [dijkstraInit, List.mem_singleton] at he
    subst he
    exact ⟨0, rfl, le_refl _⟩
  · intro v hv
    by_cases h : v = source
    · subst h
      exact Or.inr ⟨0, hdist0, le_refl _⟩
    · show DistShape (((List.replicate g.node_count F64.inf).set source (F64.fin 0)).getD
        v F64.inf)
      rw [hdistne v h]
      exact Or.inl rfl
  · intro e he
    simp only [dijkstraInit, List.mem_singleton] at he
    subst he
    show F64.Fle (((List.replicate g.node_count F64.inf).set source (F64.fin 0)).getD
      source F64.inf) (F64.fin 0)
    rw [hdist0]
    exact F64.Fle.refl _
  · intro u hu hvu
    have hvu' : (List.replicate g.node_count false).getD u false = true := hvu
    rw [hvis u] at hvu'
    cases hvu'
  · intro x hx hvx hdx
    have hdx' : ((List.replicate g.node_count F64.inf).set source (F64.fin 0)).getD
        x F64.inf ≠ F64.inf := hdx
    by_cases h : x = source
    · subst h
      refine ⟨⟨x, F64.fin 0⟩, by simp [dijkstraInit], rfl, ?_⟩
      show F64.Fle (F64.fin 0) (((List.replicate g.node_count F64.inf).set x
        (F64.fin 0)).getD x F64.inf)
      rw [hdist0]
      exact F64.Fle.refl _
    · exact absurd (hdistne x h) hdx'
  · intro u hu hvu
    have hvu' : (List.replicate g.node_count false).getD u false = true := hvu
    rw [hvis u] at hvu'
    cases hvu'
  · intro e he
    simp only [dijkstraInit, List.mem_singleton] at he
    subst he
    exact Or.inl rfl
  · intro x hx hpx
    have hpx' : (List.replicate g.node_count (-1 : Int)).getD x (-1) ≠ -1 := hpx
    exact absurd (hpred x) hpx'
  · intro e he
    simp only [dijkstraInit, List.mem_singleton] at he
    subst he
    exact Relation.ReflTransGen.refl
  · intro u hu hvu
    have hvu' : (List.replicate g.node_count false).getD u false = true := hvu
    rw [hvis u] at hvu'
    cases hvu'
  · intro u hu hvu
    have hvu' : (List.replicate g.node_count false).getD u false = true := hvu
    rw [hvis u] at hvu'
    cases hvu'
  · intro u hu hvu
    have hvu' : (List.replicate g.node_count false).getD u false = true := hvu
    rw [hvis u] at hvu'
    cases hvu'
  · show 0 = (List.replicate g.node_count false).countP (fun b => b)
    symm
    rw [List.countP_eq_zero]
    intro a ha
    rw [List.eq_of_mem_replicate ha]
    simp
  · show 0 = visitedOutdegSum g (List.replicate g.node_count false)
    have hz : visitedOutdegSum g (List.replicate g.node_count false) = 0 := by
      unfold visitedOutdegSum
      apply Finset.sum_eq_zero
      intro u _
      rw [hvis u]
      simp
    rw [hz]

/-- What the invariant yields once the heap is empty. -/
theorem final_state_facts {g : SparseGraph} {source : Nat} {st : DState}
    (G : GraphOK g) (hsrc : source < g.node_count)
    (I : LoopInv g source st) (hheap : st.heap = []) :
    st.dist source = F64.fin 0 ∧
    (∀ u v w, IsEdge g u v w → F64.Fle (st.dist v) ((st.dist u).add w)) ∧
    (∀ u, u < g.node_count → (st.vis u = true ↔ Reaches g source u)) ∧
    st.nodes_visited ≤ g.node_count ∧
    st.edges_relaxed = visitedOutdegSum g st.visited ∧
    (∀ v, v < g.node_count → st.vis v = true →
      ∃ k, k + 1 ≤ st.nodes_visited ∧ predIterate st.predecessors k v = source) := by
  obtain ⟨C, hrelax, hcount, hsum⟩ := I
  have hunvis_inf : ∀ x, x < g.node_count → st.vis x = false → st.dist x = F64.inf := by
    intro x hx hvx
    by_contra hdx
    rcases C.hpending x hx hvx hdx with ⟨e, he, _, _⟩
    rw [hheap] at he
    cases he
  have hvis_of_fin : ∀ x, x < g.node_count → st.dist x ≠ F64.inf → st.vis x = true := by
    intro x hx hdx
    rcases hb : st.vis x with _ | _
    · exact absurd (hunvis_inf x hx hb) hdx
    · rfl
  have hedge : ∀ u v w, IsEdge g u v w → F64.Fle (st.dist v) ((st.dist u).add w) := by
    intro u v w hvw
    have hu : u < g.node_count := hvw.1
    rcases hvw.2 with ⟨e, he1, he2, hde, hwe⟩
    have hv : v < g.node_count := G.hdst _ (List.getElem?_mem hde)
    rcases G.hwts _ (List.getElem?_mem hwe) with ⟨qw, rfl, hqw⟩
    rcases hb : st.vis u with _ | _
    · rw [hunvis_inf u hu hb]
      show F64.Fle (st.dist v) F64.inf
      exact F64.fle_inf ((C.hshape v hv).not_nan)
    · exact hrelax u hu hb v (F64.fin qw) ⟨hu, e, he1, he2, hde, hwe⟩
  have hreach_vis : ∀ u, Reaches g source u → st.vis u = true := by
    intro u hr
    induction hr with
    | refl =>
      apply hvis_of_fin source hsrc
      rw [C.hsource0]
      simp
    | tail hr1 hstep ih =>
      rename_i b c
      rcases hstep with ⟨w, hedge'⟩
      have hb : b < g.node_count := reaches_lt hsrc G.hdst hr1
      have hc : c < g.node_count := G.hdst _ (List.getElem?_mem hedge'.2.choose_spec.2.2.1)
      have hbfin := C.hvis_fin b hb (ih)
      rcases (C.hshape b hb).not_nan with hbinf | ⟨qb, hqb⟩
      · exact absurd hbinf hbfin
      · have h2 := hedge b c w hedge'
        rcases G.hwts _ (List.getElem?_mem hedge'.2.choose_spec.2.2.2) with ⟨qw, hw, _⟩
        apply hvis_of_fin c hc
        rw [hqb, hw] at h2
        rw [F64.add_fin] at h2
        exact F64.lt_fin_ne_inf h2
  refine ⟨C.hsource0, hedge, ?_, ?_, hsum, ?_⟩
  · intro u hu
    exact ⟨fun h => C.hvis_reach u hu h, fun h => hreach_vis u h⟩
  · rw [hcount]
    calc st.visited.countP (fun b => b) ≤ st.visited.length := List.countP_le_length _
    _ = g.node_count := C.hvlen
  · intro v hv hvis
    rcases C.hchain v hv hvis with ⟨k, hk, hchain⟩
    exact ⟨k, hk, hchain.predIterate_eq⟩

/-! ## Dissecting a successful `solve` -/

theorem dijkstraMain_ok_cases {g : SparseGraph} {source : Nat} {r : SSSpResult}
    (h : dijkstraMain g source = .ok r) :
    source < g.node_count ∧ ∃ st, dijkstraLoop g (dijkstraInit g source) = some st ∧
      r = { distances := st.distances
            predecessors := st.predecessors
            nodes_visited := st.nodes_visited
            edges_relaxed := st.edges_relaxed
            wall_time_ms := F64.fin 0
            algorithm_used := "dijkstra-optimized" } := by
  unfold dijkstraMain at h
  split at h
  · rename_i hsrc
    split at h
    · cases h
    · rename_i st hst
      cases h
      exact ⟨hsrc, st, hst, rfl⟩
  · cases h

theorem solve_enhanced_ok_cases {s : EnhancedSSSpSolver} {source : Nat} {r : SSSpResult}
    (h : s.solve_enhanced source = .ok r) :
    ∃ r0, dijkstraMain s.graph source = .ok r0 ∧
      r = { distances := r0.distances
            predecessors := r0.predecessors
            nodes_visited := r0.nodes_visited
            edges_relaxed := r0.edges_relaxed
            wall_time_ms := F64.fin 0
            algorithm_used := "enhanced-sssp" } := by
  unfold EnhancedSSSpSolver.solve_enhanced at h
  split at h
  · split at h
    · cases h
    · split at h
      · cases h
      · split at h
        · rename_i d hd
          cases h
          exact ⟨d, hd, rfl⟩
        · rename_i o hno
          exact (hno r h).elim
  · cases h

theorem solve_ok_cases {s : EnhancedSSSpSolver} {source : Nat} {r : SSSpResult}
    (h : s.solve source = .ok r) :
    source < s.graph.node_count ∧
    ∃ st, dijkstraLoop s.graph (dijkstraInit s.graph source) = some st ∧
      r.distances = st.distances ∧ r.predecessors = st.predecessors ∧
      r.nodes_visited = st.nodes_visited ∧ r.edges_relaxed = st.edges_relaxed := by
  unfold EnhancedSSSpSolver.solve at h
  split at h
  · cases h
  · rename_i hle
    refine ⟨Nat.lt_of_not_le hle, ?_⟩
    split at h
    · rename_i r' heq
      cases h
      split at heq
      · rcases solve_enhanced_ok_cases heq with ⟨r0, hd, rfl⟩
        rcases dijkstraMain_ok_cases hd with ⟨_, st, hst, rfl⟩
        exact ⟨st, hst, rfl, rfl, rfl, rfl⟩
      · rcases dijkstraMain_ok_cases heq with ⟨_, st, hst, rfl⟩
        exact ⟨st, hst, rfl, rfl, rfl, rfl⟩
    · rename_i o hno
      exact (hno r h).elim

/-- Everything a successful `solve` on a validated graph guarantees. -/
theorem solve_run_facts {s : EnhancedSSSpSolver} {source : Nat} {r : SSSpResult}
    (hval : s.graph.validate = true) (h : s.solve source = .ok r) :
    r.distances.getD source F64.inf = F64.fin 0 ∧
    (∀ u v w, IsEdge s.graph u v w →
      F64.Fle (r.distances.getD v F64.inf) ((r.distances.getD u F64.inf).add w)) ∧
    r.nodes_visited ≤ s.graph.node_count ∧
    (∃ S : Finset Nat, (∀ u, u ∈ S ↔ Reaches s.graph source u) ∧
      r.edges_relaxed = ∑ u in S, outdeg s.graph u) ∧
    (∀ v, v < s.graph.node_count → Reaches s.graph source v →
      ∃ k, k ≤ s.graph.node_count - 1 ∧ predIterate r.predecessors k v = source) := by
  have G := graphOK_of_validate hval
  rcases solve_ok_cases h with ⟨hsrc, st, hloop, hd, hp, hn, he⟩
  rcases dijkstraLoop_invariant s.graph (LoopInv s.graph source)
      (fun st1 st2 hP hs => dijkstraStep_inv G hsrc hP hs)
      _ st (dijkstraInit_inv G hsrc) hloop with ⟨I, hheap⟩
  rcases final_state_facts G hsrc I hheap with ⟨f1, f2, f3, f4, f5, f6⟩
  refine ⟨?_, ?_, ?_, ?_, ?_⟩
  · rw [hd]
    exact f1
  · intro u v w hvw
    rw [hd]
    exact f2 u v w hvw
  · rw [hn]
    exact f4
  · refine ⟨(Finset.range s.graph.node_count).filter (fun u => st.vis u = true), ?_, ?_⟩
    · intro u
      constructor
      · intro hu
        rcases Finset.mem_filter.mp hu with ⟨hu1, hu2⟩
        exact (f3 u (Finset.mem_range.mp hu1)).mp hu2
      · intro hu
        have hun : u < s.graph.node_count := reaches_lt hsrc G.hdst hu
        exact Finset.mem_filter.mpr ⟨Finset.mem_range.mpr hun, (f3 u hun).mpr hu⟩
    · rw [he, hn] at *
      rw [f5]
      unfold visitedOutdegSum
      rw [Finset.sum_filter]
      rfl
  · intro v hv hreach
    rcases f6 v hv ((f3 v hv).mpr hreach) with ⟨k, hk, hiter⟩
    refine ⟨k, ?_, ?_⟩
    · omega
    · rw [hp]
      exact hiter

/-! ## First-failure characterisations of `find?` -/

theorem find?_first {α : Type} {p : α → Bool} {l : List α} {a : α}
    (h : l.find? p = some a) :
    p a = true ∧ ∃ l1 l2, l = l1 ++ a :: l2 ∧ ∀ x ∈ l1, p x = false := by
  induction l with
  | nil => simp [List.find?] at h
  | cons b t ih =>
    rw [List.find?_cons] at h
    rcases hb : p b with _ | _
    · rw [hb] at h
      simp only [cond_false] at h
      rcases ih h with ⟨hpa, l1, l2, heq, hprev⟩
      refine ⟨hpa, b :: l1, l2, by rw [heq]; rfl, ?_⟩
      intro x hx
      rcases List.mem_cons.mp hx with rfl | hx'
      · exact hb
      · exact hprev x hx'
    · rw [hb] at h
      simp only [cond_true] at h
      cases h
      exact ⟨hb, [], t, rfl, by simp⟩

theorem find?_first_eq {α : Type} {p : α → Bool} {l1 l2 : List α} {a : α}
    (h1 : ∀ x ∈ l1, p x = false) (ha : p a = true) :
    (l1 ++ a :: l2).find? p = some a := by
  induction l1 with
  | nil => simp [List.find?_cons, ha]
  | cons b t ih =>
    rw [List.cons_append, List.find?_cons, h1 b (List.mem_cons_self _ _)]
    simp only [cond_false]
    exact ih (fun x hx => h1 x (List.mem_cons_of_mem _ hx))

theorem find?_range_first {p : Nat → Bool} {n i : Nat}
    (h : (List.range n).find? p = some i) :
    i < n ∧ p i = true ∧ ∀ j, j < i → p j = false := by
  have hmem := List.mem_range.mp (List.mem_of_find?_eq_some h)
  have hp := List.find?_some h
  rcases find?_first h with ⟨_, l1, l2, heq, hprev⟩
  have hlen : l1.length < n := by
    have h2 := congrArg List.length heq
    simp at h2
    omega
  have hieq : i = l1.length := by
    have hl1 : l1.length < (List.range n).length := by simpa using hlen
    have h2 := List.getElem_range _ hl1
    rw [List.getElem_of_eq heq] at h2
    rw [List.getElem_append_right (le_refl l1.length)] at h2
    simpa using h2
  refine ⟨hmem, hp, ?_⟩
  intro j hj
  have hjlen : j < l1.length := by omega
  have hjn : j < (List.range n).length := by
    simp only [List.length_range]
    omega
  have h2 := List.getElem_range _ hjn
  rw [List.getElem_of_eq heq, List.getElem_append_left hjlen] at h2
  exact h2 ▸ hprev _ (List.getElem_mem _)

theorem find?_range_eq_some {p : Nat → Bool} {n i : Nat} (hi : i < n) (hp : p i = true)
    (hprev : ∀ j, j < i → p j = false) : (List.range n).find? p = some i := by
  rcases hf : (List.range n).find? p with _ | a
  · exact absurd hp (by simpa using List.find?_eq_none.mp hf i (List.mem_range.mpr hi))
  · rcases find?_range_first hf with ⟨han, hpa, haprev⟩
    rcases Nat.lt_trichotomy a i with h | h | h
    · rw [hprev a h] at hpa
      cases hpa
    · rw [h]
    · rw [haprev i h] at hp
      cases hp

/-! ## Preprocess and dispatch lemmas -/

theorem buildDecompLoop_assign_length (cap : Nat) :
    ∀ (L : List Nat) (acc : List Nat × List Cluster × List Nat × Nat),
      (buildDecompLoop cap L acc).1.length = acc.1.length := by
  intro L
  induction L with
  | nil => intro acc; rfl
  | cons node rest ih =>
    intro acc
    rcases acc with ⟨assign, clusters, cluster_nodes, cur⟩
    simp only [buildDecompLoop]
    split
    · rw [ih]
      simp
    · rw [ih]
      simp

theorem buildHierarchicalDecomposition_assign {g : SparseGraph}
    {d : HierarchicalDecomposition} (h : buildHierarchicalDecomposition g = some d) :
    d.cluster_assignment.length = g.node_count := by
  unfold buildHierarchicalDecomposition at h
  dsimp only at h
  split at h
  · cases h
  · rename_i clusters2 hid
    cases h
    show (buildDecompLoop (max 32 (Nat.sqrt g.node_count)) (List.range g.node_count)
      (List.replicate g.node_count 0, [], [], 0)).1.length = g.node_count
    rw [buildDecompLoop_assign_length]
    simp

theorem preprocess_success_cases {g : SparseGraph} {s1 : EnhancedSSSpSolver}
    (h : (EnhancedSSSpSolver.new g).preprocess = some (true, s1)) :
    g.validate = true ∧ ∃ d, buildHierarchicalDecomposition g = some d ∧
      s1 = ⟨g, true, some d⟩ := by
  unfold EnhancedSSSpSolver.preprocess at h
  split at h
  · rename_i hval
    split at h
    · cases h
    · rename_i d hd
      cases h
      exact ⟨hval, d, hd, rfl⟩
  · simp at h

theorem dijkstraMain_ne_invalid (g : SparseGraph) (source i : Nat) :
    dijkstraMain g source ≠ .invalidSource i := by
  unfold dijkstraMain
  split
  · split <;> simp
  · simp

theorem solve_enhanced_ne_invalid (s : EnhancedSSSpSolver) (source i : Nat) :
    s.solve_enhanced source ≠ .invalidSource i := by
  intro h
  unfold EnhancedSSSpSolver.solve_enhanced at h
  split at h
  · split at h
    · cases h
    · split at h
      · cases h
      · split at h
        · cases h
        · rename_i o hno
          exact dijkstraMain_ne_invalid _ _ _ h
  · cases h

/-- Tag-rewriting map used to state the enhanced/baseline refinement. -/
def retagOutcome : SolveOutcome → SolveOutcome
  | .ok r => .ok { r with algorithm_used := "enhanced-sssp" }
  | o => o

theorem solve_total_dijkstra {s : EnhancedSSSpSolver} {source : Nat}
    (SOK : StructOK s.graph) (hsrc : source < s.graph.node_count)
    (hdisp : s.hop_sets_built = false ∨ s.hierarchical_decomposition = none) :
    ∃ r, s.solve source = .ok r ∧ r.algorithm_used = "dijkstra-optimized" := by
  rcases dijkstraMain_total SOK hsrc with ⟨r0, h0, htag⟩
  have hcond : (s.hop_sets_built && s.hierarchical_decomposition.isSome) = false := by
    rcases hdisp with h | h <;> simp [h]
  unfold EnhancedSSSpSolver.solve
  rw [if_neg (Nat.not_le.mpr hsrc)]
  simp only [hcond, Bool.false_eq_true, if_false, h0]
  exact ⟨_, rfl, htag⟩

theorem solve_total {s : EnhancedSSSpSolver} {source : Nat} (SOK : StructOK s.graph)
    (hsrc : source < s.graph.node_count)
    (hassign : ∀ d, s.hierarchical_decomposition = some d →
      source < d.cluster_assignment.length) :
    ∃ r, s.solve source = .ok r := by
  rcases dijkstraMain_total SOK hsrc with ⟨r0, h0, _⟩
  unfold EnhancedSSSpSolver.solve
  rw [if_neg (Nat.not_le.mpr hsrc)]
  rcases hcond : (s.hop_sets_built && s.hierarchical_decomposition.isSome) with _ | _
  · simp only [hcond, Bool.false_eq_true, if_false, h0]
    exact ⟨_, rfl⟩
  · have h2 := (Bool.and_eq_true _ _).mp hcond
    rcases Option.isSome_iff_exists.mp h2.2 with ⟨d, hd⟩
    have hsa : d.cluster_assignment[source]? =
        some (d.cluster_assignment.getD source 0) :=
      getElem?_eq_some_getD _ (hassign d hd)
    simp only [hcond, if_true]
    unfold EnhancedSSSpSolver.solve_enhanced
    rw [if_pos hsrc, hd]
    simp only [hsa, h0]
    exact ⟨_, rfl⟩

theorem solve_preprocessed_eq {g : SparseGraph} {d : HierarchicalDecomposition}
    (hd : buildHierarchicalDecomposition g = some d) (source : Nat) :
    EnhancedSSSpSolver.solve ⟨g, true, some d⟩ source =
      retagOutcome ((EnhancedSSSpSolver.new g).solve source) := by
  have hlen := buildHierarchicalDecomposition_assign hd
  unfold EnhancedSSSpSolver.solve EnhancedSSSpSolver.new
  dsimp only
  by_cases hsrc : g.node_count ≤ source
  · rw [if_pos hsrc, if_pos hsrc]
    rfl
  · have hlt : source < g.node_count := Nat.not_le.mp hsrc
    rw [if_neg hsrc, if_neg hsrc]
    have hsa : d.cluster_assignment[source]? =
        some (d.cluster_assignment.getD source 0) := by
      apply getElem?_eq_some_getD
      rw [hlen]
      exact hlt
    unfold EnhancedSSSpSolver.solve_enhanced
    dsimp only
    rw [if_pos hlt, hsa]
    rcases hval : dijkstraMain g source with i | _ | r0
    · exact absurd hval (dijkstraMain_ne_invalid g source i)
    · rfl
    · rfl

/-- The decomposition `preprocess` builds for the scenario graph: one cluster
(capacity `max 32 √4 = 32` is never reached), no boundary nodes. -/
def scenarioSolverPre : EnhancedSSSpSolver :=
  ⟨gScenario, true, some ⟨[⟨0, [0, 1, 2, 3], []⟩], [0, 0, 0, 0]⟩⟩

theorem scenario_preprocess :
    (EnhancedSSSpSolver.new gScenario).preprocess = some (true, scenarioSolverPre) := by
  with_unfolding_all decide

theorem shortOffsets_preprocess :
    (EnhancedSSSpSolver.new gShortOffsets).preprocess =
      some (false, EnhancedSSSpSolver.new gShortOffsets) := by
  with_unfolding_all decide

theorem solve_new_tag {g : SparseGraph} {source : Nat} {r : SSSpResult}
    (h : (EnhancedSSSpSolver.new g).solve source = .ok r) :
    r.algorithm_used = "dijkstra-optimized" := by
  unfold EnhancedSSSpSolver.solve EnhancedSSSpSolver.new at h
  dsimp only at h
  split at h
  · cases h
  · split at h
    · rename_i r' heq
      cases h
      rcases dijkstraMain_ok_cases heq with ⟨_, st, _, rfl⟩
      rfl
    · rename_i o hno
      exact (hno r h).elim

theorem badDest_fuel :
    fuelLoop gBadDest 3 (dijkstraInit gBadDest 0) = some none := by
  with_unfolding_all decide

/-- `gBadDest` fails `validate` (destination `5` out of range) but `solve 0`
is still called with a valid source and panics on `distances[5]`. -/
theorem badDest_solve : (EnhancedSSSpSolver.new gBadDest).solve 0 = .trap := by
  have h := dijkstraMain_trap_eval (g := gBadDest) (by decide) badDest_fuel
  simp only [EnhancedSSSpSolver.solve, EnhancedSSSpSolver.new] at *
  rw [if_neg (by decide)]
  simp [h]

/-! ## The claims -/

/-- C1: for every graph accepted by `validate` and every in-range source, any
`ShortestPathResult` that `solve` returns satisfies Dijkstra optimality:
`distances[source] = 0` and `distances[v] ≤ distances[u] + w` for every edge
`(u, v, w)` of the graph. -/
theorem c1_optimality (s : EnhancedSSSpSolver) (source : Nat) (r : SSSpResult)
    (hval : s.graph.validate = true) (hsrc : source < s.graph.node_count)
    (hrun : s.solve source = .ok r) :
    r.distances.getD source F64.inf = F64.fin 0 ∧
    ∀ u v w, IsEdge s.graph u v w →
      F64.Fle (r.distances.getD v F64.inf) ((r.distances.getD u F64.inf).add w) := by
  rcases solve_run_facts hval hrun with ⟨f1, f2, _⟩
  exact ⟨f1, f2⟩

theorem c1_optimality_witness :
    rScenario.distances.getD 0 F64.inf = F64.fin 0 ∧
    F64.Fle (rScenario.distances.getD 1 F64.inf)
      ((rScenario.distances.getD 0 F64.inf).add (F64.fin 1)) := by
  have h := c1_optimality (EnhancedSSSpSolver.new gScenario) 0 rScenario (by decide)
    (by decide) scenario_solve
  exact ⟨h.1, h.2 0 1 (F64.fin 1)
    ⟨by decide, 0, by decide, by decide, by decide, by decide⟩⟩

/-- C2: after a successful `preprocess`, `solve` returns exactly the outcome
of the never-preprocessed solver on the same graph with only the
`algorithm_used` tag rewritten (`retagOutcome` changes the tag of an `ok`
result to `"enhanced-sssp"` and nothing else; timing is constant in the
model): the decomposition is never consulted by the relaxation. -/
theorem c2_enhanced_refines_dijkstra (g : SparseGraph) (s1 : EnhancedSSSpSolver)
    (source : Nat) (hpre : (EnhancedSSSpSolver.new g).preprocess = some (true, s1)) :
    s1.solve source = retagOutcome ((EnhancedSSSpSolver.new g).solve source) ∧
    (∀ r, (EnhancedSSSpSolver.new g).solve source = .ok r →
      r.algorithm_used = "dijkstra-optimized") ∧
    (∀ r, s1.solve source = .ok r → r.algorithm_used = "enhanced-sssp") := by
  rcases preprocess_success_cases hpre with ⟨hval, d, hd, rfl⟩
  have heq := solve_preprocessed_eq hd source
  refine ⟨heq, fun r hr => solve_new_tag hr, fun r hr => ?_⟩
  rw [heq] at hr
  cases hb : (EnhancedSSSpSolver.new g).solve source with
  | invalidSource i =>
    rw [hb] at hr
    cases hr
  | trap =>
    rw [hb] at hr
    cases hr
  | ok r0 =>
    rw [hb] at hr
    cases hr
    rfl

theorem c2_enhanced_refines_dijkstra_witness :
    scenarioSolverPre.solve 0 =
      retagOutcome ((EnhancedSSSpSolver.new gScenario).solve 0) :=
  (c2_enhanced_refines_dijkstra gScenario scenarioSolverPre 0 scenario_preprocess).1

/-- C3 (counterexample): the claim "for every source < node_count `solve`
returns a ShortestPathResult" is false — on `gBadDest` (a graph with an
out-of-range destination) the source `0` is in range yet `solve 0` panics
(out-of-bounds `distances` index), returning no result and no
`InvalidSourceError`. -/
theorem c3_cex_valid_source_trap :
    0 < gBadDest.node_count ∧ (EnhancedSSSpSolver.new gBadDest).solve 0 = .trap :=
  ⟨by decide, badDest_solve⟩

/-- C3 (amended): `solve` returns `InvalidSourceError` carrying exactly the
offending source if and only if `source ≥ node_count`; and for
`source < node_count` it returns a result provided the graph is structurally
sound (`StructOK`: the `validate` checks minus weights, plus the offset-sum
bound `offsets[node_count] ≤ edge_count` that `validate` omits) and any
stored decomposition covers all nodes. -/
theorem c3_source_error_amended (s : EnhancedSSSpSolver) (source : Nat) :
    (s.solve source = .invalidSource source ↔ s.graph.node_count ≤ source) ∧
    (∀ i, s.solve source = .invalidSource i → i = source) ∧
    (source < s.graph.node_count → StructOK s.graph →
      (∀ d, s.hierarchical_decomposition = some d →
        d.cluster_assignment.length = s.graph.node_count) →
      ∃ r, s.solve source = .ok r) := by
  have hinv : ∀ i, s.solve source = .invalidSource i →
      i = source ∧ s.graph.node_count ≤ source := by
    intro i h
    unfold EnhancedSSSpSolver.solve at h
    split at h
    · rename_i hle
      cases h
      exact ⟨rfl, hle⟩
    · split at h
      · cases h
      · rename_i o hno
        by_cases hc : (s.hop_sets_built && s.hierarchical_decomposition.isSome) = true
        · rw [if_pos hc] at h
          exact absurd h (solve_enhanced_ne_invalid s source i)
        · rw [if_neg hc] at h
          exact absurd h (dijkstraMain_ne_invalid _ _ i)
  refine ⟨⟨fun h => (hinv source h).2, fun h => ?_⟩, fun i h => (hinv i h).1,
    fun h1 h2 h3 => solve_total h2 h1 (fun d hd => ?_)⟩
  · unfold EnhancedSSSpSolver.solve
    rw [if_pos h]
  · rw [h3 d hd]
    exact h1

theorem c3_source_error_witness :
    (EnhancedSSSpSolver.new gScenario).solve 4 = .invalidSource 4 ∧
    ∃ r, (EnhancedSSSpSolver.new gScenario).solve 0 = .ok r := by
  refine ⟨((c3_source_error_amended (EnhancedSSSpSolver.new gScenario) 4).1).mpr
    (by decide), ?_⟩
  exact (c3_source_error_amended (EnhancedSSSpSolver.new gScenario) 0).2.2 (by decide)
    (by decide) (fun d hd => by simp [EnhancedSSSpSolver.new] at hd)

/-- C4 (code-bug evaluation): the claim fails — `validate` accepts
`gHugeOffsets`, whose offsets `[0, 1]` overrun the empty `destinations` and
`weights` arrays (`validate` never bounds offset values by `edge_count`),
yet `solve 0` with the in-range source `0` reads `destinations[0]` out of
bounds and panics (`.trap`), so not every index used by the loop on a
validated graph is in bounds. -/
theorem c4_validated_graph_oob_trap :
    gHugeOffsets.validate = true ∧ 0 < gHugeOffsets.node_count ∧
    (EnhancedSSSpSolver.new gHugeOffsets).solve 0 = .trap :=
  ⟨by decide, by decide, hugeOffsets_solve⟩

/-- C5: `validate` accepts exactly the well-formed graphs, accepts a
well-formed triple logging `passed`, and checks the malformations in source
order short-circuiting on the first failure: wrong offsets length first;
then (after the parallel-array length check) the first non-monotonic offset
position, the first out-of-range destination, and the first negative or
non-finite weight, each logging the diagnostic for that first violation.
The model is a pure function of the graph, so `validate` mutates nothing by
construction. -/
theorem c5_validate_diagnostics (g : SparseGraph) :
    (g.validate = true ↔ WellFormed g) ∧
    (WellFormed g → g.validateLog = (true, [Diag.passed])) ∧
    (g.outgoing_edges.length ≠ g.node_count + 1 →
      g.validateLog = (false, [Diag.wrongOffsetsLen])) ∧
    (∀ i, g.outgoing_edges.length = g.node_count + 1 →
      g.destinations.length = g.edge_count →
      g.weights.length = g.edge_count →
      i < g.node_count →
      g.outgoing_edges.getD (i + 1) 0 < g.outgoing_edges.getD i 0 →
      (∀ j, j < i → g.outgoing_edges.getD j 0 ≤ g.outgoing_edges.getD (j + 1) 0) →
      g.validateLog = (false, [Diag.nonMonotonic i])) ∧
    (∀ l1 d l2, g.outgoing_edges.length = g.node_count + 1 →
      g.destinations.length = g.edge_count →
      g.weights.length = g.edge_count →
      (∀ i, i < g.node_count →
        g.outgoing_edges.getD i 0 ≤ g.outgoing_edges.getD (i + 1) 0) →
      g.destinations = l1 ++ d :: l2 →
      (∀ x ∈ l1, x < g.node_count) →
      g.node_count ≤ d →
      g.validateLog = (false, [Diag.badDest d])) ∧
    (∀ l1 w l2, g.outgoing_edges.length = g.node_count + 1 →
      g.destinations.length = g.edge_count →
      g.weights.length = g.edge_count →
      (∀ i, i < g.node_count →
        g.outgoing_edges.getD i 0 ≤ g.outgoing_edges.getD (i + 1) 0) →
      (∀ x ∈ g.destinations, x < g.node_count) →
      g.weights = l1 ++ w :: l2 →
      (∀ x ∈ l1, F64.lt x (F64.fin 0) = false ∧ x.isFinite = true) →
      (F64.lt w (F64.fin 0) = true ∨ w.isFinite = false) →
      g.validateLog = (false, [Diag.badWeight w])) := by
  refine ⟨validate_iff_wellFormed g, ?_, ?_, ?_, ?_, ?_⟩
  · rintro ⟨h1, h2, h3, h4, h5, h6⟩
    unfold SparseGraph.validateLog
    rw [if_neg (fun hh => hh h1),
        if_neg (not_or.mpr ⟨fun hh => hh h2, fun hh => hh h3⟩)]
    have hf1 : (List.range g.node_count).find?
        (fun i => decide (g.outgoing_edges.getD (i + 1) 0 < g.outgoing_edges.getD i 0))
        = none :=
      List.find?_eq_none.mpr (fun i hi => by
        simp only [decide_eq_true_eq]
        exact Nat.not_lt.mpr (h4 i (List.mem_range.mp hi)))
    have hf2 : g.destinations.find? (fun d => decide (g.node_count ≤ d)) = none :=
      List.find?_eq_none.mpr (fun d hd => by
        simp only [decide_eq_true_eq]
        exact Nat.not_le.mpr (h5 d hd))
    have hf3 : g.weights.find? (fun w => F64.lt w (F64.fin 0) || !w.isFinite) = none :=
      List.find?_eq_none.mpr (fun w hw => by rw [(h6 w hw).1, (h6 w hw).2]; decide)
    rw [hf1, hf2, hf3]
  · intro h
    unfold SparseGraph.validateLog
    rw [if_pos h]
  · intro i h1 h2 h3 hi hviol hprev
    unfold SparseGraph.validateLog
    rw [if_neg (fun hh => hh h1),
        if_neg (not_or.mpr ⟨fun hh => hh h2, fun hh => hh h3⟩)]
    have hf : (List.range g.node_count).find?
        (fun j => decide (g.outgoing_edges.getD (j + 1) 0 < g.outgoing_edges.getD j 0))
        = some i :=
      find?_range_eq_some hi (by simp only [decide_eq_true_eq]; exact hviol)
        (fun j hj => by
          simp only [decide_eq_false_iff_not]
          exact Nat.not_lt.mpr (hprev j hj))
    rw [hf]
  · intro l1 d l2 h1 h2 h3 hmono hdeq hl1 hd
    unfold SparseGraph.validateLog
    rw [if_neg (fun hh => hh h1),
        if_neg (not_or.mpr ⟨fun hh => hh h2, fun hh => hh h3⟩)]
    have hf1 : (List.range g.node_count).find?
        (fun i => decide (g.outgoing_edges.getD (i + 1) 0 < g.outgoing_edges.getD i 0))
        = none :=
      List.find?_eq_none.mpr (fun i hi => by
        simp only [decide_eq_true_eq]
        exact Nat.not_lt.mpr (hmono i (List.mem_range.mp hi)))
    have hf2 : g.destinations.find? (fun x => decide (g.node_count ≤ x)) = some d := by
      rw [hdeq]
      exact find?_first_eq (fun x hx => by
          simp only [decide_eq_false_iff_not]
          exact Nat.not_le.mpr (hl1 x hx))
        (by simp only [decide_eq_true_eq]; exact hd)
    rw [hf1, hf2]
  · intro l1 w l2 h1 h2 h3 hmono hdest hweq hl1 hw
    unfold SparseGraph.validateLog
    rw [if_neg (fun hh => hh h1),
        if_neg (not_or.mpr ⟨fun hh => hh h2, fun hh => hh h3⟩)]
    have hf1 : (List.range g.node_count).find?
        (fun i => decide (g.outgoing_edges.getD (i + 1) 0 < g.outgoing_edges.getD i 0))
        = none :=
      List.find?_eq_none.mpr (fun i hi => by
        simp only [decide_eq_true_eq]
        exact Nat.not_lt.mpr (hmono i (List.mem_range.mp hi)))
    have hf2 : g.destinations.find? (fun x => decide (g.node_count ≤ x)) = none :=
      List.find?_eq_none.mpr (fun x hx => by
        simp only [decide_eq_true_eq]
        exact Nat.not_le.mpr (hdest x hx))
    have hf3 : g.weights.find? (fun x => F64.lt x (F64.fin 0) || !x.isFinite)
        = some w := by
      rw [hweq]
      refine find?_first_eq (fun x hx => ?_) ?_
      · rw [(hl1 x hx).1, (hl1 x hx).2]
        rfl
      · rcases hw with hw | hw
        · rw [hw]
          rfl
        · rw [hw]
          simp
    rw [hf1, hf2, hf3]

theorem c5_validate_diagnostics_witness :
    gShortOffsets.validateLog = (false, [Diag.wrongOffsetsLen]) ∧
    gNonMono.validateLog = (false, [Diag.nonMonotonic 0]) ∧
    gBadDest.validateLog = (false, [Diag.badDest 5]) ∧
    gBadWeight.validateLog = (false, [Diag.badWeight (F64.fin (-1))]) ∧
    gScenario.validateLog = (true, [Diag.passed]) := by
  refine ⟨(c5_validate_diagnostics gShortOffsets).2.2.1 (by decide),
    (c5_validate_diagnostics gNonMono).2.2.2.1 0 (by decide) (by decide) (by decide)
      (by decide) (by decide) (by decide),
    (c5_validate_diagnostics gBadDest).2.2.2.2.1 [] 5 [] (by decide) (by decide)
      (by decide) (by decide) (by decide) (by decide) (by decide),
    (c5_validate_diagnostics gBadWeight).2.2.2.2.2 [] (F64.fin (-1)) [] (by decide)
      (by decide) (by decide) (by decide) (by decide) (by decide) (by decide)
      (Or.inl (by decide)),
    (c5_validate_diagnostics gScenario).2.1 (by decide)⟩

/-- C6 (counterexample): the claim "every subsequent solve with a valid
source still succeeds" after a failed `preprocess` is false — `gShortOffsets`
fails `validate` (wrong offsets length), `preprocess` duly returns `false`
leaving the solver unchanged, yet `solve 0` with the in-range source `0`
panics (out-of-bounds offsets read) instead of succeeding. -/
theorem c6_cex_failed_validate_trap :
    gShortOffsets.validate = false ∧
    (EnhancedSSSpSolver.new gShortOffsets).preprocess =
      some (false, EnhancedSSSpSolver.new gShortOffsets) ∧
    0 < gShortOffsets.node_count ∧
    (EnhancedSSSpSolver.new gShortOffsets).solve 0 = .trap :=
  ⟨by decide, shortOffsets_preprocess, by decide, shortOffsets_solve⟩

/-- C6 (amended): when `validate` fails, `preprocess` returns `false` and
leaves the solver state unchanged (no decomposition stored, no flag set);
subsequent `solve` calls with a valid source succeed tagged
`"dijkstra-optimized"` provided the graph is additionally structurally sound
(`StructOK` — e.g. a merely negative-weight graph), which the failed
`validate` does not guarantee. -/
theorem c6_failed_preprocess_amended (s : EnhancedSSSpSolver)
    (hval : s.graph.validate = false) :
    s.preprocess = some (false, s) ∧
    (StructOK s.graph →
      (s.hop_sets_built = false ∨ s.hierarchical_decomposition = none) →
      ∀ source, source < s.graph.node_count →
        ∃ r, s.solve source = .ok r ∧ r.algorithm_used = "dijkstra-optimized") := by
  constructor
  · unfold EnhancedSSSpSolver.preprocess
    rw [hval]
    rfl
  · intro SOK hdisp source hsrc
    exact solve_total_dijkstra SOK hsrc hdisp

theorem c6_failed_preprocess_witness :
    (EnhancedSSSpSolver.new gNegWeight).preprocess =
      some (false, EnhancedSSSpSolver.new gNegWeight) ∧
    ∃ r, (EnhancedSSSpSolver.new gNegWeight).solve 0 = .ok r ∧
      r.algorithm_used = "dijkstra-optimized" := by
  have h := c6_failed_preprocess_amended (EnhancedSSSpSolver.new gNegWeight) (by decide)
  exact ⟨h.1, h.2 (by decide) (Or.inl rfl) 0 (by decide)⟩

/-- C7: on a validated graph, the counters of any returned result satisfy
`nodes_visited ≤ node_count`, and `edges_relaxed` is exactly the sum of
out-degrees over the set of nodes reachable from the source (each popped
unvisited node contributes its full CSR slice once). -/
theorem c7_counters (s : EnhancedSSSpSolver) (source : Nat) (r : SSSpResult)
    (hval : s.graph.validate = true) (hsrc : source < s.graph.node_count)
    (hrun : s.solve source = .ok r) :
    r.nodes_visited ≤ s.graph.node_count ∧
    ∃ S : Finset Nat, (∀ u, u ∈ S ↔ Reaches s.graph source u) ∧
      r.edges_relaxed = ∑ u in S, outdeg s.graph u := by
  rcases solve_run_facts hval hrun with ⟨_, _, f3, f4, _⟩
  exact ⟨f3, f4⟩

theorem c7_counters_witness :
    rScenario.nodes_visited ≤ gScenario.node_count ∧
    ∃ S : Finset Nat, (∀ u, u ∈ S ↔ Reaches gScenario 0 u) ∧
      rScenario.edges_relaxed = ∑ u in S, outdeg gScenario u :=
  c7_counters (EnhancedSSSpSolver.new gScenario) 0 rScenario (by decide) (by decide)
    scenario_solve

/-- C8: on a validated graph, for every node `v` reachable from the source,
iterating the returned predecessor map from `v` reaches the source within
`node_count - 1` steps. -/
theorem c8_pred_chains (s : EnhancedSSSpSolver) (source v : Nat) (r : SSSpResult)
    (hval : s.graph.validate = true) (hsrc : source < s.graph.node_count)
    (hrun : s.solve source = .ok r) (hv : v < s.graph.node_count)
    (hreach : Reaches s.graph source v) :
    ∃ k, k ≤ s.graph.node_count - 1 ∧ predIterate r.predecessors k v = source :=
  (solve_run_facts hval hrun).2.2.2.2 v hv hreach

theorem c8_pred_chains_witness :
    ∃ k, k ≤ gScenario.node_count - 1 ∧ predIterate rScenario.predecessors k 3 = 0 := by
  have e01 : EdgeStep gScenario 0 1 :=
    ⟨F64.fin 1, by decide, 0, by decide, by decide, by decide, by decide⟩
  have e12 : EdgeStep gScenario 1 2 :=
    ⟨F64.fin 2, by decide, 2, by decide, by decide, by decide, by decide⟩
  have e23 : EdgeStep gScenario 2 3 :=
    ⟨F64.fin 1, by decide, 3, by decide, by decide, by decide, by decide⟩
  have hreach : Reaches gScenario 0 3 :=
    Relation.ReflTransGen.tail (Relation.ReflTransGen.tail
      (Relation.ReflTransGen.tail Relation.ReflTransGen.refl e01) e12) e23
  exact c8_pred_chains (EnhancedSSSpSolver.new gScenario) 0 3 rScenario (by decide)
    (by decide) scenario_solve (by decide) hreach

/-- C9: on the concrete 4-node scenario graph with edges `(0→1,1)`,
`(1→2,2)`, `(0→2,5)`, `(2→3,1)`, `solve 0` returns
`distances = [0, 1, 3, 4]`, `predecessors = [-1, 0, 1, 2]` (`-1` is the
no-predecessor sentinel modelling `None`), `nodes_visited = 4` and
`edges_relaxed = 4`. -/
theorem c9_scenario :
    ∃ r, (EnhancedSSSpSolver.new gScenario).solve 0 = .ok r ∧
      r.distances = [F64.fin 0, F64.fin 1, F64.fin 3, F64.fin 4] ∧
      r.predecessors = [-1, 0, 1, 2] ∧
      r.nodes_visited = 4 ∧ r.edges_relaxed = 4 :=
  ⟨rScenario, scenario_solve, rfl, rfl, rfl, rfl⟩

/-- C10: `validate` also requires the weights array to match the derived
`edge_count` (the length of `destinations`): it returns `false` whenever
`weights.length ≠ edge_count`, and acceptance guarantees the lengths agree. -/
theorem c10_weights_length (g : SparseGraph) :
    (g.weights.length ≠ g.edge_count → g.validate = false) ∧
    (g.validate = true → g.weights.length = g.edge_count) := by
  have key : g.weights.length ≠ g.edge_count → g.validate = false := by
    intro hw
    unfold SparseGraph.validate SparseGraph.validateLog
    split
    · rfl
    · rw [if_pos (Or.inr hw)]
  refine ⟨key, fun hv => ?_⟩
  by_contra hw
  rw [key hw] at hv
  exact Bool.noConfusion hv

theorem c10_weights_length_witness :
    gWrongWLen.weights.length ≠ gWrongWLen.edge_count ∧ gWrongWLen.validate = false :=
  ⟨by decide, (c10_weights_length gWrongWLen).1 (by decide)⟩
